import Mathlib

/-!
Verification of core algorithms of the tendermint repository against its
natural-language specification.

Shallow embedding conventions:
* Go byte slices are `List Nat` (each element a byte value).
* Go `uint8`/`uint64` counters (tree height and size) are `Nat`; the
  operations at hand perform no wrap-around arithmetic on them.
* The persistence layer (`Db`, placeholder flags, `leftFilled`/`rightFilled`)
  is an orthogonal caching concern: on an in-memory tree `leftFilled` is the
  `left` field, so the embedding works on the in-memory tree directly.
* Functions that can `panic` in Go are embedded with the panicking branch
  made explicit (a dedicated result constructor) or, where the branch is
  unreachable from the API (rotations on leaves), as the identity with the
  unreachability proved from the tree invariants.
-/

namespace merkle

/-- Go `bytes.Compare` on byte slices: lexicographic comparison, as an
`Ordering` (`-1`/`0`/`+1` in Go become `.lt`/`.eq`/`.gt`). -/
def bytesCompare : List Nat → List Nat → Ordering
  | [], [] => .eq
  | [], _ :: _ => .lt
  | _ :: _, [] => .gt
  | a :: as, b :: bs =>
    if a < b then .lt else if b < a then .gt else bytesCompare as bs

/-- Go `bytes.Equal` on byte slices. -/
def bytesEqual (a b : List Nat) : Bool := a = b

end merkle

namespace sha256

/-! The SHA-256 function (FIPS 180-4), as used by Go's `crypto/sha256` in
`IAVLNode.HashWithCount`.  Words are `Nat`s reduced mod 2^32. -/

/-- Truncate to a 32-bit word. -/
def w32 (x : Nat) : Nat := x % 4294967296

/-- Right rotation of a 32-bit word. -/
def rotr (n x : Nat) : Nat := w32 ((x >>> n) ||| (x <<< (32 - n)))

/-- Logical right shift. -/
def shr (n x : Nat) : Nat := x >>> n

/-- 32-bit complement. -/
def compl32 (x : Nat) : Nat := x ^^^ 4294967295

def bigSigma0 (x : Nat) : Nat := (rotr 2 x) ^^^ (rotr 13 x) ^^^ (rotr 22 x)

def bigSigma1 (x : Nat) : Nat := (rotr 6 x) ^^^ (rotr 11 x) ^^^ (rotr 25 x)

def smallSigma0 (x : Nat) : Nat := (rotr 7 x) ^^^ (rotr 18 x) ^^^ (shr 3 x)

def smallSigma1 (x : Nat) : Nat := (rotr 17 x) ^^^ (rotr 19 x) ^^^ (shr 10 x)

def ch (x y z : Nat) : Nat := (x &&& y) ^^^ (compl32 x &&& z)

def maj (x y z : Nat) : Nat := (x &&& y) ^^^ (x &&& z) ^^^ (y &&& z)

/-- The 64 round constants. -/
def K : List Nat :=
 [1116352408, 1899447441, 3049323471, 3921009573, 961987163, 1508970993,
   2453635748, 2870763221, 3624381080, 310598401, 607225278, 1426881987,
   1925078388, 2162078206, 2614888103, 3248222580, 3835390401, 4022224774,
   264347078, 604807628, 770255983, 1249150122, 1555081692, 1996064986,
   2554220882, 2821834349, 2952996808, 3210313671, 3336571891, 3584528711,
   113926993, 338241895, 666307205, 773529912, 1294757372, 1396182291,
   1695183700, 1986661051, 2177026350, 2456956037, 2730485921, 2820302411,
   3259730800, 3345764771, 3516065817, 3600352804, 4094571909, 275423344,
   430227734, 506948616, 659060556, 883997877, 958139571, 1322822218,
   1537002063, 1747873779, 1955562222, 2024104815, 2227730452, 2361852424,
   2428436474, 2756734187, 3204031479, 3329325298]

/-- The initial hash state. -/
def H0 : List Nat :=
 [1779033703, 3144134277, 1013904242, 2773480762, 1359893119, 2600822924,
   528734635, 1541459225]

/-- Big-endian encoding of `x` in `numBytes` bytes. -/
def beBytes : Nat → Nat → List Nat
  | 0, _ => []
  | n + 1, x => beBytes n (x / 256) ++ [x % 256]

/-- SHA-256 padding: append `0x80`, zeros to 56 mod 64, then the bit length
as an 8-byte big-endian integer. -/
def padBytes (msg : List Nat) : List Nat :=
  let z := (119 - msg.length % 64) % 64
  msg ++ [0x80] ++ List.replicate z 0 ++ beBytes 8 (8 * msg.length)

/-- Group bytes into big-endian 32-bit words. -/
def toWords : List Nat → List Nat
  | a :: b :: c :: d :: rest => (((a * 256 + b) * 256 + c) * 256 + d) :: toWords rest
  | _ => []

/-- Group words into 16-word blocks. -/
def toBlocks : List Nat → List (List Nat)
  | w0 :: w1 :: w2 :: w3 :: w4 :: w5 :: w6 :: w7 ::
    w8 :: w9 :: w10 :: w11 :: w12 :: w13 :: w14 :: w15 :: rest =>
    [w0, w1, w2, w3, w4, w5, w6, w7, w8, w9, w10, w11, w12, w13, w14, w15]
      :: toBlocks rest
  | _ => []

/-- One message-schedule extension step: append word
`σ1(w[t-2]) + w[t-7] + σ0(w[t-15]) + w[t-16]`. -/
def extendOnce (w : List Nat) : List Nat :=
  let t := w.length
  w ++ [w32 (smallSigma1 (w.getD (t - 2) 0) + w.getD (t - 7) 0 +
             smallSigma0 (w.getD (t - 15) 0) + w.getD (t - 16) 0)]

/-- Iterate the schedule extension. -/
def extendWords : Nat → List Nat → List Nat
  | 0, w => w
  | n + 1, w => extendWords n (extendOnce w)

/-- One compression round on the 8-word working state. -/
def compressStep (st : List Nat) (kw : Nat × Nat) : List Nat :=
  match st with
  | [a, b, c, d, e, f, g, h] =>
    let t1 := w32 (h + bigSigma1 e + ch e f g + kw.1 + kw.2)
    let t2 := w32 (bigSigma0 a + maj a b c)
    [w32 (t1 + t2), a, b, c, w32 (d + t1), e, f, g]
  | _ => st

/-- The SHA-256 compression function for one 16-word block. -/
def compress (st : List Nat) (block : List Nat) : List Nat :=
  let ws := extendWords 48 block
  let st1 := (K.zip ws).foldl compressStep st
  (st.zip st1).map (fun p => w32 (p.1 + p.2))

/-- SHA-256 of a byte string, as a 32-byte string. -/
def sum256 (msg : List Nat) : List Nat :=
  let final := (toBlocks (toWords (padBytes msg))).foldl compress H0
  final.foldr (fun w acc => beBytes 4 w ++ acc) []

end sha256

namespace merkle

/-- The in-memory IAVL+ node of `merkle/iavl_node.go`.  A node with
`height == 0` is a leaf carrying a value; an inner node carries the stored
`height` and `size` fields and two children.  `NewIAVLNode` always builds a
leaf with `size = 1`, `height = 0`, so the embedding keeps those two fields
implicit in the `leaf` constructor. -/
inductive IAVLNode where
  | leaf (key : List Nat) (value : List Nat)
  | node (key : List Nat) (height : Nat) (size : Nat)
      (left : IAVLNode) (right : IAVLNode)
deriving DecidableEq, Repr

namespace IAVLNode

/-- `NewIAVLNode(key, value)`: a fresh leaf. -/
def NewIAVLNode (key value : List Nat) : IAVLNode := .leaf key value

/-- `self.key`. -/
def key : IAVLNode → List Nat
  | .leaf k _ => k
  | .node k _ _ _ _ => k

/-- `self.Height()`: the stored `height` field (0 for leaves). -/
def height : IAVLNode → Nat
  | .leaf _ _ => 0
  | .node _ h _ _ _ => h

/-- `self.Size()`: the stored `size` field (1 for leaves). -/
def size : IAVLNode → Nat
  | .leaf _ _ => 1
  | .node _ _ s _ _ => s

/-- `self.left` for inner nodes.  The Go code never reads `left` of a leaf
(it would dereference nil); the leaf case returns the node itself and is
proved unreachable where used. -/
def left : IAVLNode → IAVLNode
  | .leaf k v => .leaf k v
  | .node _ _ _ l _ => l

/-- `self.right` for inner nodes (same remark as `left`). -/
def right : IAVLNode → IAVLNode
  | .leaf k v => .leaf k v
  | .node _ _ _ _ r => r

/-- `self.get(db, key)` of `iavl_node.go`: at a leaf compare keys, at an
inner node descend left iff `bytes.Compare(key, self.key) == -1`.  The Go
function returns `nil` for a missing key; the embedding returns `none`. -/
def get (t : IAVLNode) (k : List Nat) : Option (List Nat) :=
  match t with
  | .leaf k0 v0 => if bytesEqual k0 k then some v0 else none
  | .node k0 _ _ l r =>
    if bytesCompare k k0 = .lt then get l k else get r k

/-- `self.has(db, key)` of `iavl_node.go`: true at any node whose own key
equals `key`, else descend by comparison. -/
def has (t : IAVLNode) (k : List Nat) : Bool :=
  match t with
  | .leaf k0 _ => bytesEqual k0 k
  | .node k0 _ _ l r =>
    if bytesEqual k0 k then true
    else if bytesCompare k k0 = .lt then has l k else has r k

/-- `self.calcHeightAndSize(db)`: recompute the stored `height` and `size`
fields of an inner node from the children's stored fields.  The Go method is
only ever invoked on inner nodes; the leaf case is the identity. -/
def calcHeightAndSize : IAVLNode → IAVLNode
  | .leaf k v => .leaf k v
  | .node k _ _ l r => .node k (max l.height r.height + 1) (l.size + r.size) l r

/-- `self.calcBalance(db)`: stored left height minus stored right height,
as a Go `int`.  Only invoked on inner nodes; 0 for the (unreachable) leaf
case. -/
def calcBalance : IAVLNode → Int
  | .leaf _ _ => 0
  | .node _ _ _ l r => (l.height : Int) - r.height

/-- `self.rotateRight(db)`: `sl := self.left; sl.right, self.left =
self, sl.right`, then `calcHeightAndSize` on `self` first and `sl` second.
The source `Copy()` panics when `self.left` is a leaf; that branch is
unreachable from `balance` (the rotation is only taken when the left
subtree's stored height is at least 2) and is embedded as the identity. -/
def rotateRight : IAVLNode → IAVLNode
  | .node k h s (.node lk lh ls ll lr) r =>
    calcHeightAndSize (.node lk lh ls ll (calcHeightAndSize (.node k h s lr r)))
  | t => t

/-- `self.rotateLeft(db)`: mirror image of `rotateRight`. -/
def rotateLeft : IAVLNode → IAVLNode
  | .node k h s l (.node rk rh rs rl rr) =>
    calcHeightAndSize (.node rk rh rs (calcHeightAndSize (.node k h s l rl)) rr)
  | t => t

/-- `self.balance(db)` of `iavl_node.go`: the four standard AVL cases on the
stored heights. -/
def balance (t : IAVLNode) : IAVLNode :=
  if t.calcBalance > 1 then
    if t.left.calcBalance ≥ 0 then
      rotateRight t
    else
      match t with
      | .node k h s l r => rotateRight (.node k h s (rotateLeft l) r)
      | t => t
  else if t.calcBalance < -1 then
    if t.right.calcBalance ≤ 0 then
      rotateLeft t
    else
      match t with
      | .node k h s l r => rotateLeft (.node k h s l (rotateRight r))
      | t => t
  else t

/-- `self.set(db, key, value)` of `iavl_node.go`: split a leaf into a
2-leaf inner node (the inner key is the right leaf's key), overwrite on key
equality, otherwise descend, then `calcHeightAndSize` and `balance` unless
the key merely got overwritten. -/
def set (t : IAVLNode) (k v : List Nat) : IAVLNode × Bool :=
  match t with
  | .leaf k0 v0 =>
    if bytesCompare k k0 = .lt then
      (.node k0 1 2 (NewIAVLNode k v) (.leaf k0 v0), false)
    else if bytesEqual k0 k then
      (NewIAVLNode k v, true)
    else
      (.node k 1 2 (.leaf k0 v0) (NewIAVLNode k v), false)
  | .node k0 h s l r =>
    if bytesCompare k k0 = .lt then
      let res := set l k v
      if res.2 then
        (.node k0 h s res.1 r, true)
      else
        (balance (calcHeightAndSize (.node k0 h s res.1 r)), false)
    else
      let res := set r k v
      if res.2 then
        (.node k0 h s l res.1, true)
      else
        (balance (calcHeightAndSize (.node k0 h s l res.1)), false)

/-- The `NotFound(key)` error of `merkle/types.go`. -/
inductive MerkleError where
  | notFound (key : List Nat)
deriving DecidableEq, Repr

/-- Result of `IAVLNode.remove`: `(newSelf, newKey, value, err)`.  `newSelf`
is `none` exactly when the node held the value and was removed. -/
structure RemoveResult where
  newSelf : Option IAVLNode
  newKey : Option (List Nat)
  value : Option (List Nat)
  err : Option MerkleError
deriving DecidableEq, Repr

/-- `self.remove(db, key)` of `iavl_node.go`.  On error the original
(uncopied) node is returned unchanged; when a child leaf held the value the
sibling replaces the node, the removed-from-the-left case propagating the
inner key as the `newKey` of the remaining subtree. -/
def remove (t : IAVLNode) (k : List Nat) : RemoveResult :=
  match t with
  | .leaf k0 v0 =>
    if bytesEqual k0 k then ⟨none, none, some v0, none⟩
    else ⟨some (.leaf k0 v0), none, none, some (.notFound k)⟩
  | .node k0 h s l r =>
    if bytesCompare k k0 = .lt then
      let res := remove l k
      match res.err with
      | some e => ⟨some (.node k0 h s l r), none, res.value, some e⟩
      | none =>
        match res.newSelf with
        | none => ⟨some r, some k0, res.value, none⟩
        | some newLeft =>
          ⟨some (balance (calcHeightAndSize (.node k0 h s newLeft r))),
            res.newKey, res.value, none⟩
    else
      let res := remove r k
      match res.err with
      | some e => ⟨some (.node k0 h s l r), none, res.value, some e⟩
      | none =>
        match res.newSelf with
        | none => ⟨some l, none, res.value, none⟩
        | some newRight =>
          match res.newKey with
          | some nk =>
            ⟨some (balance (calcHeightAndSize (.node nk h s l newRight))),
              none, res.value, none⟩
          | none =>
            ⟨some (balance (calcHeightAndSize (.node k0 h s l newRight))),
              none, res.value, none⟩

end IAVLNode

/-- Modelled from the spec: `WriteUInt8` of the canonical binary codec
(§4.1 "Every integer is big-endian, fixed-width"); the codec primitives
(`binary/int.go`) are not part of the provided sources. -/
def writeUInt8 (x : Nat) : List Nat := [x % 256]

/-- Modelled from the spec: `WriteUInt32`, 4 bytes big-endian (§4.1). -/
def writeUInt32 (x : Nat) : List Nat := sha256.beBytes 4 x

/-- Modelled from the spec: `WriteUInt64`, 8 bytes big-endian (§4.1). -/
def writeUInt64 (x : Nat) : List Nat := sha256.beBytes 8 x

/-- Modelled from the spec: `WriteByteSlice`, a `UInt32` length prefix
followed by the bytes (§4.1 "Byte-strings and sequences are length-prefixed
by UInt32"). -/
def writeByteSlice (bs : List Nat) : List Nat := writeUInt32 bs.length ++ bs

namespace IAVLNode

/-- The root hash computed by `IAVLNode.HashWithCount` on a fresh
(uncached) tree: SHA-256 of the node's `saveToCountHashes` serialization —
`height`, `size`, `key`, then the value for a leaf or the two children's
hashes for an inner node. -/
def hashOf : IAVLNode → List Nat
  | .leaf k v =>
    sha256.sum256 (writeUInt8 0 ++ writeUInt64 1 ++ writeByteSlice k ++
      writeByteSlice v)
  | .node k h s l r =>
    sha256.sum256 (writeUInt8 h ++ writeUInt64 s ++ writeByteSlice k ++
      writeByteSlice (hashOf l) ++ writeByteSlice (hashOf r))

end IAVLNode

/-- Modelled from the spec: the tree-level `set` of §4.2 operating on an
optional root (`IAVLTree.Set`; the thin `iavl_tree.go` wrapper is not part
of the provided sources, its behaviour on an empty tree — create the first
leaf — is exercised by `TestIntegration` in `iavl_test.go`). -/
def treeSet (root : Option IAVLNode) (k v : List Nat) :
    Option IAVLNode × Bool :=
  match root with
  | none => (some (IAVLNode.NewIAVLNode k v), false)
  | some t =>
    let res := t.set k v
    (some res.1, res.2)

/-- Modelled from the spec: tree-level `remove` of §4.2 on an optional root:
`NotFound` on the empty tree, otherwise `IAVLNode.remove`, the root being
replaced by `newSelf` on success and kept on error. -/
def treeRemove (root : Option IAVLNode) (k : List Nat) :
    Option IAVLNode × Option (List Nat) × Option IAVLNode.MerkleError :=
  match root with
  | none => (none, none, some (.notFound k))
  | some t =>
    let res := t.remove k
    match res.err with
    | some e => (some t, res.value, some e)
    | none => (res.newSelf, res.value, none)

/-- Tree-level `get`: `none` on the empty tree. -/
def treeGet (root : Option IAVLNode) (k : List Nat) : Option (List Nat) :=
  match root with
  | none => none
  | some t => t.get k

/-- Tree-level `Size`: 0 on the empty tree. -/
def treeSize (root : Option IAVLNode) : Nat :=
  match root with
  | none => 0
  | some t => t.size

/-- Tree-level root hash: `none` on the empty tree. -/
def treeHash (root : Option IAVLNode) : Option (List Nat) :=
  match root with
  | none => none
  | some t => some t.hashOf

/-- Build a tree by `set`-ing each listed pair in order, starting empty. -/
def build (ps : List (List Nat × List Nat)) : Option IAVLNode :=
  ps.foldl (fun root p => (treeSet root p.1 p.2).1) none

/-- In-order list of the tree's leaves (the key-value bindings). -/
def leaves : IAVLNode → List (List Nat × List Nat)
  | .leaf k v => [(k, v)]
  | .node _ _ _ l r => leaves l ++ leaves r

/-- Every leaf key of `t` is strictly below `k`. -/
def allKeysLt (t : IAVLNode) (k : List Nat) : Bool :=
  (leaves t).all fun p => decide (bytesCompare p.1 k = .lt)

/-- Every leaf key of `t` is at least `k`. -/
def allKeysGe (t : IAVLNode) (k : List Nat) : Bool :=
  (leaves t).all fun p => decide (¬ bytesCompare p.1 k = .lt)

/-- The search-tree invariant of an IAVL+ tree: at every inner node, the
left subtree's leaf keys are strictly below the node key and the right
subtree's leaf keys are at least the node key. -/
def ordered : IAVLNode → Bool
  | .leaf _ _ => true
  | .node k _ _ l r => allKeysLt l k && allKeysGe r k && ordered l && ordered r

/-- The stored `height` and `size` fields agree with the recomputation
`calcHeightAndSize` performs, at every inner node. -/
def fieldsOK : IAVLNode → Bool
  | .leaf _ _ => true
  | .node _ h s l r =>
    decide (h = max l.height r.height + 1) && decide (s = l.size + r.size) &&
      fieldsOK l && fieldsOK r

/-- The AVL balance invariant on the stored heights:
`|height(left) − height(right)| ≤ 1` at every inner node. -/
def balancedOK : IAVLNode → Bool
  | .leaf _ _ => true
  | .node _ _ _ l r =>
    decide (l.height ≤ r.height + 1) && decide (r.height ≤ l.height + 1) &&
      balancedOK l && balancedOK r

/-- The full well-formedness invariant of reachable IAVL+ trees. -/
def wf (t : IAVLNode) : Bool := fieldsOK t && balancedOK t && ordered t

/-- Whether some leaf of `t` binds key `k`. -/
def containsKey (t : IAVLNode) (k : List Nat) : Bool :=
  (leaves t).any fun p => decide (p.1 = k)

/-- Sorted-association-list insertion, the functional model of `set` on the
leaf list: insert before the first larger key, replace an equal key. -/
def insertSorted :
    List (List Nat × List Nat) → List Nat → List Nat →
      List (List Nat × List Nat)
  | [], k, v => [(k, v)]
  | (k0, v0) :: rest, k, v =>
    match bytesCompare k k0 with
    | .lt => (k, v) :: (k0, v0) :: rest
    | .eq => (k, v) :: rest
    | .gt => (k0, v0) :: insertSorted rest k v

/-- Association-list lookup (first binding wins). -/
def lookupKV : List (List Nat × List Nat) → List Nat → Option (List Nat)
  | [], _ => none
  | (k0, v0) :: rest, k => if k0 = k then some v0 else lookupKV rest k

/-- The last binding of `k` in an (unsorted) insertion sequence: the value
the key-value map described by the sequence assigns to `k`. -/
def listGetLast : List (List Nat × List Nat) → List Nat → Option (List Nat)
  | [], _ => none
  | (k0, v0) :: rest, k =>
    match listGetLast rest k with
    | some v => some v
    | none => if k = k0 then some v0 else none

/-- An editing operation on the tree, for stating invariant preservation
over arbitrary operation sequences. -/
inductive Op where
  | setOp (k v : List Nat)
  | removeOp (k : List Nat)
deriving DecidableEq, Repr

/-- Apply one operation at the tree level. -/
def applyOp (root : Option IAVLNode) : Op → Option IAVLNode
  | .setOp k v => (treeSet root k v).1
  | .removeOp k => (treeRemove root k).1

/-- Apply a sequence of operations at the tree level. -/
def applyOps (ops : List Op) (root : Option IAVLNode) : Option IAVLNode :=
  ops.foldl applyOp root

/-- Leaf list of an optional root. -/
def treeLeaves (root : Option IAVLNode) : List (List Nat × List Nat) :=
  match root with
  | none => []
  | some t => leaves t

/-- Height/size-field correctness and AVL balance of an optional root. -/
def invRoot (root : Option IAVLNode) : Bool :=
  match root with
  | none => true
  | some t => fieldsOK t && balancedOK t

/-- Full well-formedness of an optional root. -/
def wfRoot (root : Option IAVLNode) : Bool :=
  match root with
  | none => true
  | some t => wf t

/-- One step of the sorted-association-list model of tree building. -/
def insertModel (m : List (List Nat × List Nat)) (p : List Nat × List Nat) :
    List (List Nat × List Nat) :=
  insertSorted m p.1 p.2

/-- The sorted-association-list model of `build`. -/
def buildModel (l : List (List Nat × List Nat)) :
    List (List Nat × List Nat) :=
  l.foldl insertModel []

end merkle

namespace consensus

/-- A signature as used by `consensus/pol.go`: the signing account id
(`SignerId`, a `uint64`) and the signature bytes. -/
structure Signature where
  SignerId : Nat
  Bytes : List Nat
deriving DecidableEq, Repr

/-- The validator data `POL.Verify` reads: the account id and the voting
power (`state/validator.go`; the remaining fields do not enter `Verify`). -/
structure Validator where
  Id : Nat
  VotingPower : Nat
deriving DecidableEq, Repr

/-- Modelled from the spec: `ValidatorSet` is an "ordered list of
validators + TotalVotingPower" (§3); the `state` file defining it is not
among the provided sources. -/
structure ValidatorSet where
  validators : List Validator
deriving DecidableEq, Repr

/-- Modelled from the spec: `vset.GetById(id)` returns the validator with
the given account id, if present. -/
def ValidatorSet.GetById (vset : ValidatorSet) (id : Nat) : Option Validator :=
  vset.validators.find? fun v => v.Id == id

/-- Addition of two `uint64` values with Go's wrap-around semantics:
the sum reduced modulo `2^64`. -/
def w64add (a b : Nat) : Nat := (a + b) % 18446744073709551616

/-- Modelled from the spec: `vset.TotalVotingPower()` is the sum of the
validators' voting powers, accumulated in `uint64` (wrapping) arithmetic
as every Go sum of `VotingPower` values is. -/
def ValidatorSet.TotalVotingPower (vset : ValidatorSet) : Nat :=
  vset.validators.foldl (fun acc v => w64add acc v.VotingPower) 0

/-- The vote document types used by `pol.go`: `VoteTypeBare` for the vote
loop and `VoteTypeCommit` for the commit loop. -/
inductive VoteType where
  | bare
  | commit
deriving DecidableEq, Repr

/-- Modelled from the spec: `GenVoteDocument` produces the canonical signed
payload of `{Type, Height, Round, BlockHash}` (§6); `Verify` treats it
opaquely, so the embedding keeps the fields as a record. -/
structure VoteDoc where
  voteType : VoteType
  Height : Nat
  Round : Nat
  BlockHash : List Nat
deriving DecidableEq, Repr

/-- `GenVoteDocument(voteType, height, round, blockHash)`. -/
def GenVoteDocument (t : VoteType) (height round : Nat)
    (blockHash : List Nat) : VoteDoc :=
  ⟨t, height, round, blockHash⟩

/-- The `POL` struct of `consensus/pol.go`. -/
structure POL where
  Height : Nat
  Round : Nat
  BlockHash : List Nat
  Votes : List Signature
  Commits : List Signature
  CommitRounds : List Nat
deriving DecidableEq, Repr

/-- Outcome of `POL.Verify`: `ok` for a `nil` return, `errored` for an
error return, `outOfRange` for the index-out-of-range panic raised by
`pol.CommitRounds[i]`. -/
inductive VerifyResult where
  | ok
  | errored
  | outOfRange
deriving DecidableEq, Repr

/-- State of the commit loop of `POL.Verify`. -/
inductive LoopState where
  | failed
  | indexPanic
  | going (seen : List Nat) (power : Nat)
deriving DecidableEq, Repr

/-- The vote loop of `POL.Verify` (`pol.go` lines 51–68): for each vote
signature, error on a duplicate signer, an unknown validator or a bad
signature, else record the signer and tally its power.  `sigOk` abstracts
the Ed25519 check `validator.Verify(voteDoc, sig)`. -/
def verifyVotes (sigOk : Validator → VoteDoc → Signature → Bool)
    (vset : ValidatorSet) (doc : VoteDoc) :
    List Signature → List Nat → Nat → Option (List Nat × Nat)
  | [], seen, power => some (seen, power)
  | sig :: rest, seen, power =>
    if sig.SignerId ∈ seen then none
    else
      match vset.GetById sig.SignerId with
      | none => none
      | some validator =>
        if sigOk validator doc sig then
          verifyVotes sigOk vset doc rest (validator.Id :: seen)
            (w64add power validator.VotingPower)
        else none

/-- The commit loop of `POL.Verify` (`pol.go` lines 70–89): the body first
reads `round := pol.CommitRounds[i]` — an out-of-range index panics — then
performs the same checks with the commit vote document for that round. -/
def verifyCommits (sigOk : Validator → VoteDoc → Signature → Bool)
    (vset : ValidatorSet) (height : Nat) (blockHash : List Nat) :
    List Signature → List Nat → List Nat → Nat → LoopState
  | [], _, seen, power => .going seen power
  | sig :: rest, rounds, seen, power =>
    match rounds with
    | [] => .indexPanic
    | round :: rrest =>
      if sig.SignerId ∈ seen then .failed
      else
        match vset.GetById sig.SignerId with
        | none => .failed
        | some validator =>
          if sigOk validator (GenVoteDocument .commit height round blockHash)
              sig then
            verifyCommits sigOk vset height blockHash rest rrest
              (validator.Id :: seen) (w64add power validator.VotingPower)
          else .failed

/-- `POL.Verify(vset)` of `consensus/pol.go`: run the vote loop, then the
commit loop, then require tallied power strictly above
`TotalVotingPower()*2/3` — a `uint64` expression, so the product wraps
modulo `2^64` before the integer division by 3. -/
def POL.Verify (sigOk : Validator → VoteDoc → Signature → Bool)
    (pol : POL) (vset : ValidatorSet) : VerifyResult :=
  let voteDoc := GenVoteDocument .bare pol.Height pol.Round pol.BlockHash
  match verifyVotes sigOk vset voteDoc pol.Votes [] 0 with
  | none => .errored
  | some (seen, power) =>
    match verifyCommits sigOk vset pol.Height pol.BlockHash pol.Commits
        pol.CommitRounds seen power with
    | .failed => .errored
    | .indexPanic => .outOfRange
    | .going _ tallied =>
      if tallied > vset.TotalVotingPower * 2 % 18446744073709551616 / 3
        then .ok else .errored

/-- Power of the signers of a signature list under `vset` in exact
(unbounded) arithmetic, as the claim's words "sum of the signers' voting
power" read it (0 for an unknown signer; the validity conditions rule
that case out). -/
def signersPower (vset : ValidatorSet) (sigs : List Signature) : Nat :=
  (sigs.map fun sig =>
    match vset.GetById sig.SignerId with
    | some v => v.VotingPower
    | none => 0).sum

/-- The running `talliedVotingPower` of `pol.go`: fold the signers'
voting powers into `acc` with wrapping `uint64` addition, exactly as the
`talliedVotingPower += validator.VotingPower` statements do (0 for an
unknown signer; the validity conditions rule that case out). -/
def signersPowerW (vset : ValidatorSet) (sigs : List Signature)
    (acc : Nat) : Nat :=
  sigs.foldl (fun p sig =>
    w64add p (match vset.GetById sig.SignerId with
      | some v => v.VotingPower
      | none => 0)) acc

/-- The claim-side validity predicate of C2, phrased from the claim's
words: every vote and commit signature is from a validator present in
`vset`, no validator appears twice across the `Votes` and `Commits` lists,
every signature verifies against the corresponding signed vote document,
and the sum of the signers' voting power strictly exceeds 2/3 of the
total voting power — sum, product and quotient in exact arithmetic. -/
def polConditions (sigOk : Validator → VoteDoc → Signature → Bool)
    (pol : POL) (vset : ValidatorSet) : Prop :=
  (∀ sig ∈ pol.Votes ++ pol.Commits,
    (vset.GetById sig.SignerId).isSome = true) ∧
  ((pol.Votes ++ pol.Commits).map Signature.SignerId).Nodup ∧
  (∀ sig ∈ pol.Votes, ∀ val, vset.GetById sig.SignerId = some val →
    sigOk val (GenVoteDocument .bare pol.Height pol.Round pol.BlockHash)
      sig = true) ∧
  (∀ pr ∈ pol.Commits.zip pol.CommitRounds, ∀ val,
    vset.GetById pr.1.SignerId = some val →
    sigOk val (GenVoteDocument .commit pol.Height pr.2 pol.BlockHash)
      pr.1 = true) ∧
  3 * signersPower vset (pol.Votes ++ pol.Commits) >
    2 * vset.TotalVotingPower

/-- The amended validity predicate: the first four conditions of
`polConditions` unchanged, but the two-thirds test performed as the code
performs it — the tally accumulated with wrapping `uint64` addition and
compared against `TotalVotingPower()*2/3`, whose product wraps modulo
`2^64` before the integer division by 3. -/
def polConditionsW (sigOk : Validator → VoteDoc → Signature → Bool)
    (pol : POL) (vset : ValidatorSet) : Prop :=
  (∀ sig ∈ pol.Votes ++ pol.Commits,
    (vset.GetById sig.SignerId).isSome = true) ∧
  ((pol.Votes ++ pol.Commits).map Signature.SignerId).Nodup ∧
  (∀ sig ∈ pol.Votes, ∀ val, vset.GetById sig.SignerId = some val →
    sigOk val (GenVoteDocument .bare pol.Height pol.Round pol.BlockHash)
      sig = true) ∧
  (∀ pr ∈ pol.Commits.zip pol.CommitRounds, ∀ val,
    vset.GetById pr.1.SignerId = some val →
    sigOk val (GenVoteDocument .commit pol.Height pr.2 pol.BlockHash)
      pr.1 = true) ∧
  signersPowerW vset (pol.Votes ++ pol.Commits) 0 >
    vset.TotalVotingPower * 2 % 18446744073709551616 / 3

end consensus

namespace consensus

/-- Modelled from the spec: big-endian fixed-width unsigned integer reader
(§4.1 "Every integer is big-endian, fixed-width"); the primitive readers of
`binary/int.go` are not among the provided sources. -/
def readUIntBE : Nat → List Nat → Option (Nat × List Nat)
  | 0, bs => some (0, bs)
  | n + 1, bs =>
    match bs with
    | [] => none
    | b :: rest =>
      match readUIntBE n rest with
      | none => none
      | some (x, rem) => some (b * 256 ^ n + x, rem)

/-- Modelled from the spec: `ReadUInt32`. -/
def ReadUInt32 (bs : List Nat) : Option (Nat × List Nat) := readUIntBE 4 bs

/-- Modelled from the spec: `ReadUInt16`. -/
def ReadUInt16 (bs : List Nat) : Option (Nat × List Nat) := readUIntBE 2 bs

/-- Modelled from the spec: `ReadUInt64`. -/
def ReadUInt64 (bs : List Nat) : Option (Nat × List Nat) := readUIntBE 8 bs

/-- Modelled from the spec: `ReadByteSlice` — a `UInt32` length prefix
followed by that many bytes (§4.1). -/
def ReadByteSlice (bs : List Nat) : Option (List Nat × List Nat) :=
  match ReadUInt32 bs with
  | none => none
  | some (len, rest) =>
    if len ≤ rest.length then some (rest.take len, rest.drop len) else none

/-- Modelled from the spec: one `Signature` — the signer's account id then
the signature bytes (`Signature{SignerId uint64, Bytes []byte}`). -/
def ReadSignature (bs : List Nat) : Option (Signature × List Nat) :=
  match ReadUInt64 bs with
  | none => none
  | some (id, r1) =>
    match ReadByteSlice r1 with
    | none => none
    | some (sb, r2) => some (⟨id, sb⟩, r2)

/-- Helper: read a fixed number of signatures. -/
def readSignatureList : Nat → List Nat → Option (List Signature × List Nat)
  | 0, bs => some ([], bs)
  | n + 1, bs =>
    match ReadSignature bs with
    | none => none
    | some (sig, rest) =>
      match readSignatureList n rest with
      | none => none
      | some (sigs, rem) => some (sig :: sigs, rem)

/-- Modelled from the spec: `ReadSignatures` — sequences are
length-prefixed by `UInt32` (§4.1). -/
def ReadSignatures (bs : List Nat) : Option (List Signature × List Nat) :=
  match ReadUInt32 bs with
  | none => none
  | some (n, rest) => readSignatureList n rest

/-- Helper: read a fixed number of `UInt16`s. -/
def readUInt16List : Nat → List Nat → Option (List Nat × List Nat)
  | 0, bs => some ([], bs)
  | n + 1, bs =>
    match ReadUInt16 bs with
    | none => none
    | some (x, rest) =>
      match readUInt16List n rest with
      | none => none
      | some (xs, rem) => some (x :: xs, rem)

/-- Modelled from the spec: `ReadUInt16s` — a `UInt32` count then that many
`UInt16`s (§4.1). -/
def ReadUInt16s (bs : List Nat) : Option (List Nat × List Nat) :=
  match ReadUInt32 bs with
  | none => none
  | some (n, rest) => readUInt16List n rest

/-- `ReadPOL` of `consensus/pol.go`: `Height`, `Round`, `BlockHash`,
`Votes`, `Commits`, `CommitRounds`, read in order over the modelled binary
readers.  Nothing ties the lengths of `Commits` and `CommitRounds`
together. -/
def ReadPOL (bs : List Nat) : Option (POL × List Nat) :=
  match ReadUInt32 bs with
  | none => none
  | some (height, r1) =>
    match ReadUInt16 r1 with
    | none => none
    | some (round, r2) =>
      match ReadByteSlice r2 with
      | none => none
      | some (blockHash, r3) =>
        match ReadSignatures r3 with
        | none => none
        | some (votes, r4) =>
          match ReadSignatures r4 with
          | none => none
          | some (commits, r5) =>
            match ReadUInt16s r5 with
            | none => none
            | some (commitRounds, r6) =>
              some (⟨height, round, blockHash, votes, commits,
                commitRounds⟩, r6)

end consensus

namespace reactor

/-- Vote types of the consensus reactor (`VoteTypePrevote`,
`VoteTypePrecommit`, `VoteTypeCommit`; their defining file is not among the
provided sources, the three constants are used by `PeerState.SetHasVote`). -/
inductive VoteType where
  | prevote
  | precommit
  | commit
deriving DecidableEq, Repr

/-- The fields of a `Vote` read by `Receive` and `SetHasVote` (spec §3:
`Vote = {Height, Round, Type, BlockHash, BlockParts, SignerId,
Signature}`; the remaining fields do not enter these functions). -/
structure Vote where
  Height : Nat
  Round : Nat
  voteType : VoteType
  SignerId : Nat
deriving DecidableEq, Repr

/-- `BitArray.SetIndex(index, true)` on a bit array modelled as a list of
booleans (the `common` BitArray file is not among the provided sources;
spec §4.8: "True bit -> has part"). Out-of-range sets are dropped, as
`List.set` ignores them. -/
def setIndex (l : List Bool) (i : Nat) (b : Bool) : List Bool := l.set i b

/-- The fields of `PeerState` read and written by `SetHasVote`. -/
structure PeerState where
  Height : Nat
  Prevotes : List Bool
  Precommits : List Bool
  Commits : List Bool
deriving DecidableEq, Repr

/-- `PeerState.SetHasVote(height, round, index, vote)` of
`src/unnamed/part_008` lines 470–492: nothing happens unless the recorded
height matches; a prevote or precommit sets its own bit; a commit sets the
prevote and precommit bits too when `vote.Round < round`, and always sets
the commit bit. -/
def PeerState.SetHasVote (ps : PeerState) (height round : Nat) (index : Nat)
    (vote : Vote) : PeerState :=
  if ps.Height ≠ height then ps
  else
    match vote.voteType with
    | .prevote => { ps with Prevotes := setIndex ps.Prevotes index true }
    | .precommit =>
      { ps with Precommits := setIndex ps.Precommits index true }
    | .commit =>
      let ps2 :=
        if vote.Round < round then
          { ps with Prevotes := setIndex ps.Prevotes index true,
                    Precommits := setIndex ps.Precommits index true }
        else ps
      { ps2 with Commits := setIndex ps2.Commits index true }

/-- `hasVotesThreshold` of `src/unnamed/part_008` line 28: "After this many
new votes we'll send a HasVotesMessage." -/
def hasVotesThreshold : Nat := 50

/-- The inputs deciding the `VoteCh` branch of
`ConsensusReactor.Receive` for one message: the round-state height, the
peer-state height, the result of `rs.Validators.GetById` (abstracted to
whether a validator was found), and whether `conS.AddVote` accepted the
vote. -/
structure ReceiveVoteArgs where
  rsHeight : Nat
  psHeight : Nat
  validatorFound : Bool
  added : Bool
deriving DecidableEq, Repr

/-- The `VoteCh`/`Vote` branch of `ConsensusReactor.Receive`
(`src/unnamed/part_008` lines 110–205): `voteAddCounter` is a LOCAL
variable initialised to 0 at the top of every `Receive` call; when the
vote is accepted the counter is incremented and a `HasVotesMessage` is
broadcast iff `voteAddCounter % hasVotesThreshold == 0`.  The function
returns how many `HasVotesMessage` broadcasts the call performs. -/
def receiveVoteBroadcasts (vote : Vote) (a : ReceiveVoteArgs) : Nat :=
  let voteAddCounter := 0
  if vote.Height ≠ a.rsHeight ∨ vote.Height ≠ a.psHeight then 0
  else if !a.validatorFound then 0
  else if a.added then
    let voteAddCounter := voteAddCounter + 1
    if voteAddCounter % hasVotesThreshold == 0 then 1 else 0
  else 0

/-- Total `HasVotesMessage` broadcasts over a sequence of `Receive`
calls, each carrying one vote. -/
def receiveSeqBroadcasts (msgs : List (Vote × ReceiveVoteArgs)) : Nat :=
  (msgs.map fun m => receiveVoteBroadcasts m.1 m.2).sum

end reactor

namespace state

/-- The signature carried by a `Signable` (`Signature{SignerId uint64,
Bytes []byte}`). -/
structure Signature where
  SignerId : Nat
  Bytes : List Nat
deriving DecidableEq, Repr

/-- A `Signable`: a value with a signature slot; `GetSignature` and
`SetSignature` are the interface's read and store of that slot, modelled
as field access and functional update on a record with an arbitrary
body. -/
structure Signable (β : Type) where
  body : β
  signature : Signature
deriving DecidableEq, Repr

/-- `o.GetSignature()`. -/
def GetSignature {β : Type} (o : Signable β) : Signature := o.signature

/-- `o.SetSignature(sig)`. -/
def SetSignature {β : Type} (o : Signable β) (sig : Signature) :
    Signable β :=
  { o with signature := sig }

/-- The zero value `Signature{}` used to clear the slot. -/
def emptySignature : Signature := ⟨0, []⟩

/-- `Account.Verify(o)` of `state/account.go` lines 48–54: read the
signature, clear it, serialize the document, restore the signature, verify
the bytes.  Go mutates `o` through the interface, so the embedding returns
the verification result together with the final state of `o`.
`verifyBytes` abstracts `account.VerifyBytes` (Ed25519) and `binaryBytes`
abstracts `BinaryBytes`. -/
def Account.Verify {β : Type} (verifyBytes : List Nat → Signature → Bool)
    (binaryBytes : Signable β → List Nat) (o : Signable β) :
    Bool × Signable β :=
  let sig := GetSignature o
  let o1 := SetSignature o emptySignature
  let msg := binaryBytes o1
  let o2 := SetSignature o1 sig
  (verifyBytes msg sig, o2)

end state

namespace p2p

/-- `minNumOutboundPeers` of `p2p/peer_manager.go`. -/
def minNumOutboundPeers : Nat := 10

/-- Outcome of the inner candidate-pick loop of `ensurePeers` for one
outer iteration, carrying the number of `PickAddress` calls made. -/
inductive PickOutcome where
  | noResponses
  | nilPicked (picks : Nat)
  | fresh (a : Nat) (picks : Nat)
  | skipped
deriving DecidableEq, Repr

/-- The inner loop `for j := 0; i < 3; j++` of `PeerManager.ensurePeers`
(`p2p/peer_manager.go` lines 133–147).  The loop condition tests the OUTER
index `i` — not `j` — so for `i ≥ 3` the body never runs (`skipped`, zero
picks) and for `i < 3` the loop keeps picking while picks are duplicates.
The address book is modelled by the finite list of its successive
`PickAddress` results (`noResponses` marks exhaustion of that list, a
model artifact); addresses are numbers. -/
def innerPickLoop (i : Nat) (isDup : Nat → Bool) :
    List (Option Nat) → PickOutcome
  | [] => if i < 3 then .noResponses else .skipped
  | none :: _ => if i < 3 then .nilPicked 1 else .skipped
  | some a :: rest =>
    if i < 3 then
      if isDup a then
        match innerPickLoop i isDup rest with
        | .nilPicked n => .nilPicked (n + 1)
        | .fresh b n => .fresh b (n + 1)
        | o => o
      else .fresh a 1
    else .skipped

/-- The outer loop `for i := 0; i < numToDial; i++` of `ensurePeers`,
recursing on the remaining iteration count.  Returns the list of
`PickAddress` call counts of each executed outer iteration, in order,
together with the accumulated `toDial` list.  `busy` models
`sw.IsDialing(picked)` and `sw.Peers().Has(picked)`; the `toDial.Has`
duplicate check uses the accumulated picks.  A `nil` pick returns from
`ensurePeers` immediately. -/
def ensurePeersLoop (busy : Nat → Bool) :
    Nat → Nat → List Nat → List (Option Nat) → List Nat × List Nat
  | 0, _, toDial, _ => ([], toDial)
  | remaining + 1, i, toDial, resp =>
    match innerPickLoop i (fun a => toDial.contains a || busy a) resp with
    | .skipped =>
      let res := ensurePeersLoop busy remaining (i + 1) toDial resp
      (0 :: res.1, res.2)
    | .noResponses => ([], toDial)
    | .nilPicked n => ([n], toDial)
    | .fresh a n =>
      let res := ensurePeersLoop busy remaining (i + 1) (toDial ++ [a])
        (resp.drop n)
      (n :: res.1, res.2)

/-- The pick behaviour of `PeerManager.ensurePeers`
(`p2p/peer_manager.go` lines 120–152): `numToDial :=
minNumOutboundPeers - (numOutPeers + numDialing)`, return at once when it
is not positive, else run the outer loop; yields the number of
`PickAddress` calls of each outer iteration. -/
def ensurePeersPicks (numOutPeers numDialing : Nat) (busy : Nat → Bool)
    (resp : List (Option Nat)) : List Nat :=
  if minNumOutboundPeers ≤ numOutPeers + numDialing then []
  else
    (ensurePeersLoop busy (minNumOutboundPeers - (numOutPeers + numDialing))
      0 [] resp).1

/-- Per-iteration pick-count discipline, starting at outer index `i`:
iterations with index at least 3 make no `PickAddress` call, iterations
below 3 make at least one. -/
def picksOK (i : Nat) : List Nat → Prop
  | [] => True
  | n :: rest => (3 ≤ i → n = 0) ∧ (i < 3 → 1 ≤ n) ∧ picksOK (i + 1) rest

end p2p

namespace merkle

/-! Order theory of `bytesCompare` (Go `bytes.Compare`). -/

theorem bytesCompare_self (a : List Nat) : bytesCompare a a = .eq := by
  induction a with
  | nil => rfl
  | cons x xs ih => simp [bytesCompare, ih]

theorem bytesCompare_eq_iff {a b : List Nat} :
    bytesCompare a b = .eq ↔ a = b := by
  induction a generalizing b with
  | nil => cases b <;> simp [bytesCompare]
  | cons x xs ih =>
    cases b with
    | nil => simp [bytesCompare]
    | cons y ys =>
      by_cases hxy : x < y
      · simp only [bytesCompare, if_pos hxy]
        constructor
        · intro h; cases h
        · intro h
          injection h with h1 _
          omega
      · by_cases hyx : y < x
        · simp only [bytesCompare, if_neg hxy, if_pos hyx]
          constructor
          · intro h; cases h
          · intro h
            injection h with h1 _
            omega
        · have hx : x = y := by omega
          subst hx
          simp only [bytesCompare, if_neg hxy, if_neg hyx]
          rw [ih]
          constructor
          · intro h; rw [h]
          · intro h; injection h

theorem bytesCompare_lt_gt {a b : List Nat} :
    bytesCompare a b = .lt ↔ bytesCompare b a = .gt := by
  induction a generalizing b with
  | nil => cases b <;> simp [bytesCompare]
  | cons x xs ih =>
    cases b with
    | nil => simp [bytesCompare]
    | cons y ys =>
      by_cases hxy : x < y
      · have : ¬ y < x := by omega
        simp [bytesCompare, hxy, this]
      · by_cases hyx : y < x
        · simp [bytesCompare, hxy, hyx]
        · simp [bytesCompare, hxy, hyx, ih]

theorem bytesCompare_lt_trans {a b c : List Nat}
    (h1 : bytesCompare a b = .lt) (h2 : bytesCompare b c = .lt) :
    bytesCompare a c = .lt := by
  induction a generalizing b c with
  | nil =>
    cases b with
    | nil => exact absurd h1 (by simp [bytesCompare])
    | cons y ys =>
      cases c with
      | nil => exact absurd h2 (by simp [bytesCompare])
      | cons z zs => simp [bytesCompare]
  | cons x xs ih =>
    cases b with
    | nil => exact absurd h1 (by simp [bytesCompare])
    | cons y ys =>
      cases c with
      | nil => exact absurd h2 (by simp [bytesCompare])
      | cons z zs =>
        by_cases hxy : x < y
        · -- x < y ≤ z, so the head decides
          by_cases hyz : y < z
          · have hxz : x < z := by omega
            simp [bytesCompare, hxz]
          · by_cases hzy : z < y
            · exact absurd h2 (by simp [bytesCompare, hyz, hzy])
            · have : y = z := by omega
              subst this
              simp [bytesCompare, hxy]
        · by_cases hyx : y < x
          · exact absurd h1 (by simp [bytesCompare, hxy, hyx])
          · have hx : x = y := by omega
            subst hx
            simp only [bytesCompare, if_neg hxy, if_neg hyx] at h1
            by_cases hxz : x < z
            · simp [bytesCompare, hxz]
            · by_cases hzx : z < x
              · exact absurd h2 (by simp [bytesCompare, hxz, hzx])
              · have : x = z := by omega
                subst this
                simp only [bytesCompare, if_neg hxz, if_neg hzx] at h2 ⊢
                exact ih h1 h2

theorem bytesCompare_ne_of_lt {a b : List Nat}
    (h : bytesCompare a b = .lt) : a ≠ b := by
  intro hab
  subst hab
  rw [bytesCompare_self] at h
  cases h

/-- From `a < k` and `k ≤ c` conclude `a < c`. -/
theorem bytesCompare_lt_of_lt_of_ge {a k c : List Nat}
    (h1 : bytesCompare a k = .lt) (h2 : ¬ bytesCompare c k = .lt) :
    bytesCompare a c = .lt := by
  cases hkc : bytesCompare k c with
  | lt => exact bytesCompare_lt_trans h1 hkc
  | eq => exact (bytesCompare_eq_iff.mp hkc) ▸ h1
  | gt => exact absurd (bytesCompare_lt_gt.mpr hkc) h2

/-! Leaf lists, the search-tree invariant, and their preservation by the
rotations and `balance`. -/

open IAVLNode

theorem leaves_ne_nil (t : IAVLNode) : leaves t ≠ [] := by
  induction t with
  | leaf k v => simp [leaves]
  | node k h s l r ihl ihr => simp [leaves, ihl]

theorem exists_mem_leaves (t : IAVLNode) : ∃ p, p ∈ leaves t := by
  cases hl : leaves t with
  | nil => exact absurd hl (leaves_ne_nil t)
  | cons p rest => exact ⟨p, hl ▸ List.mem_cons_self p rest⟩

theorem allKeysLt_iff {t : IAVLNode} {k : List Nat} :
    allKeysLt t k = true ↔ ∀ p ∈ leaves t, bytesCompare p.1 k = .lt := by
  simp [allKeysLt, List.all_eq_true]

theorem allKeysGe_iff {t : IAVLNode} {k : List Nat} :
    allKeysGe t k = true ↔ ∀ p ∈ leaves t, ¬ bytesCompare p.1 k = .lt := by
  simp [allKeysGe, List.all_eq_true]

theorem ordered_node_iff {k : List Nat} {h s : Nat} {l r : IAVLNode} :
    ordered (.node k h s l r) = true ↔
      allKeysLt l k = true ∧ allKeysGe r k = true ∧
        ordered l = true ∧ ordered r = true := by
  simp [ordered, Bool.and_eq_true, and_assoc]

theorem leaves_calcHeightAndSize (t : IAVLNode) :
    leaves (calcHeightAndSize t) = leaves t := by
  cases t <;> rfl

theorem ordered_calcHeightAndSize (t : IAVLNode) :
    ordered (calcHeightAndSize t) = ordered t := by
  cases t <;> rfl

theorem allKeysLt_of_leaves_eq {a b : IAVLNode} {k : List Nat}
    (h : leaves a = leaves b) : allKeysLt a k = allKeysLt b k := by
  unfold allKeysLt
  rw [h]

theorem allKeysGe_of_leaves_eq {a b : IAVLNode} {k : List Nat}
    (h : leaves a = leaves b) : allKeysGe a k = allKeysGe b k := by
  unfold allKeysGe
  rw [h]

/-- `rotateRight` on the shape it is actually invoked on, written out. -/
theorem rotateRight_node (k : List Nat) (h s : Nat) (lk : List Nat)
    (lh ls : Nat) (ll lr r : IAVLNode) :
    rotateRight (.node k h s (.node lk lh ls ll lr) r) =
      .node lk (max ll.height (max lr.height r.height + 1) + 1)
        (ll.size + (lr.size + r.size)) ll
        (.node k (max lr.height r.height + 1) (lr.size + r.size) lr r) := rfl

/-- `rotateLeft` on the shape it is actually invoked on, written out. -/
theorem rotateLeft_node (k : List Nat) (h s : Nat) (rk : List Nat)
    (rh rs : Nat) (l rl rr : IAVLNode) :
    rotateLeft (.node k h s l (.node rk rh rs rl rr)) =
      .node rk (max (max l.height rl.height + 1) rr.height + 1)
        (l.size + rl.size + rr.size)
        (.node k (max l.height rl.height + 1) (l.size + rl.size) l rl) rr := rfl

theorem leaves_rotateRight (t : IAVLNode) :
    leaves (rotateRight t) = leaves t := by
  cases t with
  | leaf k v => rfl
  | node k h s l r =>
    cases l with
    | leaf lk lv => rfl
    | node lk lh ls ll lr => simp [rotateRight_node, leaves, List.append_assoc]

theorem leaves_rotateLeft (t : IAVLNode) :
    leaves (rotateLeft t) = leaves t := by
  cases t with
  | leaf k v => rfl
  | node k h s l r =>
    cases r with
    | leaf rk rv => rfl
    | node rk rh rs rl rr => simp [rotateLeft_node, leaves, List.append_assoc]

theorem ordered_rotateRight {t : IAVLNode} (h : ordered t = true) :
    ordered (rotateRight t) = true := by
  cases t with
  | leaf k v => exact h
  | node k th ts l r =>
    cases l with
    | leaf lk lv => exact h
    | node lk lh ls ll lr =>
      rw [rotateRight_node]
      rw [ordered_node_iff] at h ⊢
      obtain ⟨hlt, hge, hol, hor⟩ := h
      rw [ordered_node_iff] at hol
      obtain ⟨hllk, hlrk, holl, holr⟩ := hol
      rw [allKeysLt_iff] at hlt
      simp only [leaves, List.mem_append] at hlt
      refine ⟨hllk, ?_, holl, ?_⟩
      · -- every leaf key of lr and of r is at least lk
        rw [allKeysGe_iff]
        simp only [leaves, List.mem_append]
        rintro p (hp | hp)
        · exact allKeysGe_iff.mp hlrk p hp
        · -- p is a leaf of r: k ≤ p, and lk < k via any leaf of lr
          obtain ⟨q, hq⟩ := exists_mem_leaves lr
          have hqk : bytesCompare q.1 k = .lt := hlt q (Or.inr hq)
          have hqge : ¬ bytesCompare q.1 lk = .lt := allKeysGe_iff.mp hlrk q hq
          have hpk : ¬ bytesCompare p.1 k = .lt := allKeysGe_iff.mp hge p hp
          intro hplk
          exact hpk (bytesCompare_lt_trans
            (bytesCompare_lt_of_lt_of_ge hplk hqge) hqk)
      · rw [ordered_node_iff]
        refine ⟨?_, hge, holr, hor⟩
        rw [allKeysLt_iff]
        intro p hp
        exact hlt p (Or.inr hp)

theorem ordered_rotateLeft {t : IAVLNode} (h : ordered t = true) :
    ordered (rotateLeft t) = true := by
  cases t with
  | leaf k v => exact h
  | node k th ts l r =>
    cases r with
    | leaf rk rv => exact h
    | node rk rh rs rl rr =>
      rw [rotateLeft_node]
      rw [ordered_node_iff] at h ⊢
      obtain ⟨hlt, hge, hol, hor⟩ := h
      rw [ordered_node_iff] at hor
      obtain ⟨hrlk, hrrk, horl, horr⟩ := hor
      rw [allKeysGe_iff] at hge
      simp only [leaves, List.mem_append] at hge
      refine ⟨?_, hrrk, ?_, horr⟩
      · -- every leaf key of l and of rl is strictly below rk
        rw [allKeysLt_iff]
        simp only [leaves, List.mem_append]
        rintro p (hp | hp)
        · -- p is a leaf of l: p < k ≤ q < rk for any leaf q of rl
          obtain ⟨q, hq⟩ := exists_mem_leaves rl
          have hqk : ¬ bytesCompare q.1 k = .lt := hge q (Or.inl hq)
          have hqrk : bytesCompare q.1 rk = .lt := allKeysLt_iff.mp hrlk q hq
          have hpk : bytesCompare p.1 k = .lt := allKeysLt_iff.mp hlt p hp
          exact bytesCompare_lt_trans
            (bytesCompare_lt_of_lt_of_ge hpk hqk) hqrk
        · exact allKeysLt_iff.mp hrlk p hp
      · rw [ordered_node_iff]
        refine ⟨hlt, ?_, hol, horl⟩
        rw [allKeysGe_iff]
        intro p hp
        exact hge p (Or.inl hp)

theorem leaves_balance (t : IAVLNode) : leaves (balance t) = leaves t := by
  cases t with
  | leaf k v => rfl
  | node k h s l r =>
    unfold balance
    split
    · split
      · exact leaves_rotateRight _
      · rw [leaves_rotateRight]
        simp [leaves, leaves_rotateLeft]
    · split
      · split
        · exact leaves_rotateLeft _
        · rw [leaves_rotateLeft]
          simp [leaves, leaves_rotateRight]
      · rfl

theorem ordered_balance {t : IAVLNode} (h : ordered t = true) :
    ordered (balance t) = true := by
  cases t with
  | leaf k v => exact h
  | node k th ts l r =>
    unfold balance
    split
    · split
      · exact ordered_rotateRight h
      · apply ordered_rotateRight
        rw [ordered_node_iff] at h ⊢
        obtain ⟨hlt, hge, hol, hor⟩ := h
        refine ⟨?_, hge, ordered_rotateLeft hol, hor⟩
        rw [allKeysLt_of_leaves_eq (leaves_rotateLeft l)]
        exact hlt
    · split
      · split
        · exact ordered_rotateLeft h
        · apply ordered_rotateLeft
          rw [ordered_node_iff] at h ⊢
          obtain ⟨hlt, hge, hol, hor⟩ := h
          refine ⟨hlt, ?_, hol, ordered_rotateRight hor⟩
          rw [allKeysGe_of_leaves_eq (leaves_rotateRight r)]
          exact hge
      · exact h

/-! The sorted-association-list model of `set` and `get`. -/

theorem mem_insertSorted {m : List (List Nat × List Nat)} {k v : List Nat}
    {p : List Nat × List Nat} (h : p ∈ insertSorted m k v) :
    p = (k, v) ∨ p ∈ m := by
  induction m with
  | nil => simpa [insertSorted] using h
  | cons q rest ih =>
    obtain ⟨k0, v0⟩ := q
    simp only [insertSorted] at h
    cases hc : bytesCompare k k0 <;> rw [hc] at h
    · rcases List.mem_cons.mp h with h1 | h1
      · exact Or.inl h1
      · exact Or.inr h1
    · rcases List.mem_cons.mp h with h1 | h1
      · exact Or.inl h1
      · exact Or.inr (List.mem_cons_of_mem _ h1)
    · rcases List.mem_cons.mp h with h1 | h1
      · exact Or.inr (h1 ▸ List.mem_cons_self _ _)
      · rcases ih h1 with h2 | h2
        · exact Or.inl h2
        · exact Or.inr (List.mem_cons_of_mem _ h2)

theorem insertSorted_append_left {a b : List (List Nat × List Nat)}
    {k v : List Nat} (hb : ∀ p ∈ b, bytesCompare k p.1 = .lt) :
    insertSorted (a ++ b) k v = insertSorted a k v ++ b := by
  induction a with
  | nil =>
    cases b with
    | nil => rfl
    | cons q rest =>
      obtain ⟨k0, v0⟩ := q
      have hlt := hb (k0, v0) (List.mem_cons_self _ _)
      simp [insertSorted, hlt]
  | cons q a ih =>
    obtain ⟨k0, v0⟩ := q
    simp only [List.cons_append, insertSorted]
    cases hc : bytesCompare k k0 <;> simp [ih]

theorem insertSorted_append_right {a b : List (List Nat × List Nat)}
    {k v : List Nat} (ha : ∀ p ∈ a, bytesCompare k p.1 = .gt) :
    insertSorted (a ++ b) k v = a ++ insertSorted b k v := by
  induction a with
  | nil => rfl
  | cons q a ih =>
    obtain ⟨k0, v0⟩ := q
    have hgt := ha (k0, v0) (List.mem_cons_self _ _)
    have ih2 := ih fun p hp => ha p (List.mem_cons_of_mem _ hp)
    simp [insertSorted, hgt, ih2]

theorem lookupKV_append (a b : List (List Nat × List Nat)) (k : List Nat) :
    lookupKV (a ++ b) k =
      match lookupKV a k with
      | some v => some v
      | none => lookupKV b k := by
  induction a with
  | nil => simp [lookupKV]
  | cons q rest ih =>
    obtain ⟨k0, v0⟩ := q
    by_cases h : k0 = k <;> simp [lookupKV, h, ih]

theorem lookupKV_eq_none {m : List (List Nat × List Nat)} {k : List Nat}
    (h : ∀ p ∈ m, p.1 ≠ k) : lookupKV m k = none := by
  induction m with
  | nil => rfl
  | cons q rest ih =>
    obtain ⟨k0, v0⟩ := q
    have hne := h (k0, v0) (List.mem_cons_self _ _)
    simp only [lookupKV, if_neg hne]
    exact ih fun p hp => h p (List.mem_cons_of_mem _ hp)

theorem lookupKV_append_of_right_none {a b : List (List Nat × List Nat)}
    {k : List Nat} (h : lookupKV b k = none) :
    lookupKV (a ++ b) k = lookupKV a k := by
  rw [lookupKV_append]
  cases lookupKV a k <;> simp [h]

theorem lookupKV_append_of_left_none {a b : List (List Nat × List Nat)}
    {k : List Nat} (h : lookupKV a k = none) :
    lookupKV (a ++ b) k = lookupKV b k := by
  rw [lookupKV_append, h]

theorem lookupKV_insertSorted (m : List (List Nat × List Nat))
    (k v k2 : List Nat) :
    lookupKV (insertSorted m k v) k2 =
      if k = k2 then some v else lookupKV m k2 := by
  induction m with
  | nil => simp [insertSorted, lookupKV]
  | cons q rest ih =>
    obtain ⟨k0, v0⟩ := q
    simp only [insertSorted]
    cases hc : bytesCompare k k0
    · simp [lookupKV]
    · have hk : k = k0 := bytesCompare_eq_iff.mp hc
      subst hk
      by_cases h1 : k = k2 <;> simp [lookupKV, h1]
    · have hne : k ≠ k0 := by
        intro he
        subst he
        rw [bytesCompare_self] at hc
        cases hc
      by_cases h2 : k0 = k2
      · subst h2
        simp [lookupKV, hne]
      · simp [lookupKV, h2, ih]

theorem get_eq_lookupKV {t : IAVLNode} {k : List Nat}
    (ho : ordered t = true) : t.get k = lookupKV (leaves t) k := by
  induction t with
  | leaf k0 v0 =>
    simp only [IAVLNode.get, leaves, lookupKV, bytesEqual]
    by_cases h : k0 = k <;> simp [h]
  | node k0 h s l r ihl ihr =>
    rw [ordered_node_iff] at ho
    obtain ⟨hlt, hge, hol, hor⟩ := ho
    simp only [IAVLNode.get, leaves]
    by_cases hc : bytesCompare k k0 = .lt
    · rw [if_pos hc, ihl hol, lookupKV_append_of_right_none]
      apply lookupKV_eq_none
      intro p hp he
      have hpk : ¬ bytesCompare p.1 k0 = .lt := allKeysGe_iff.mp hge p hp
      rw [he] at hpk
      exact hpk hc
    · rw [if_neg hc, ihr hor, lookupKV_append_of_left_none]
      apply lookupKV_eq_none
      intro p hp he
      have hpk : bytesCompare p.1 k0 = .lt := allKeysLt_iff.mp hlt p hp
      exact bytesCompare_ne_of_lt
        (bytesCompare_lt_of_lt_of_ge hpk hc) he

/-- The central contents lemma for `set`: on an ordered tree it performs a
sorted-association-list insertion on the leaf list, preserves orderedness,
and reports `updated` exactly when the key was bound. -/
theorem set_contents {t : IAVLNode} (k v : List Nat)
    (ho : ordered t = true) :
    leaves (t.set k v).1 = insertSorted (leaves t) k v ∧
      ordered (t.set k v).1 = true ∧
      (t.set k v).2 = (lookupKV (leaves t) k).isSome := by
  induction t with
  | leaf k0 v0 =>
    cases hc : bytesCompare k k0
    · have hne : ¬ k0 = k := fun he =>
        bytesCompare_ne_of_lt hc he.symm
      simp [IAVLNode.set, hc, insertSorted, leaves, ordered, allKeysLt, allKeysGe,
        lookupKV, hne, bytesCompare_self, bytesEqual, NewIAVLNode]
    · have hk : k = k0 := bytesCompare_eq_iff.mp hc
      subst hk
      simp [IAVLNode.set, hc, insertSorted, leaves, ordered, lookupKV, bytesEqual,
        NewIAVLNode]
    · have hne : ¬ k0 = k := fun he => by
        rw [he, bytesCompare_self] at hc
        cases hc
      have hlt : bytesCompare k0 k = .lt := bytesCompare_lt_gt.mpr hc
      simp [IAVLNode.set, hc, insertSorted, leaves, ordered, allKeysLt, allKeysGe,
        lookupKV, hne, hlt, bytesCompare_self, bytesEqual, NewIAVLNode]
  | node k0 h s l r ihl ihr =>
    rw [ordered_node_iff] at ho
    obtain ⟨hlt, hge, hol, hor⟩ := ho
    by_cases hc : bytesCompare k k0 = .lt
    · obtain ⟨ih1, ih2, ih3⟩ := ihl hol
      have hbr : ∀ p ∈ leaves r, bytesCompare k p.1 = .lt := fun p hp =>
        bytesCompare_lt_of_lt_of_ge hc (allKeysGe_iff.mp hge p hp)
      have hrnone : lookupKV (leaves r) k = none := by
        apply lookupKV_eq_none
        intro p hp he
        exact bytesCompare_ne_of_lt (hbr p hp) he.symm
      have hleq : insertSorted (leaves l ++ leaves r) k v =
          insertSorted (leaves l) k v ++ leaves r :=
        insertSorted_append_left hbr
      have hordl2 : ordered (IAVLNode.node k0 h s (l.set k v).1 r) = true := by
        rw [ordered_node_iff]
        refine ⟨?_, hge, ih2, hor⟩
        rw [allKeysLt_iff]
        intro p hp
        rw [ih1] at hp
        rcases mem_insertSorted hp with h1 | h1
        · rw [h1]
          exact hc
        · exact allKeysLt_iff.mp hlt p h1
      rcases hres : l.set k v with ⟨l2, u⟩
      rw [hres] at ih1 ih2 ih3 hordl2
      cases u
      · simp only [IAVLNode.set, if_pos hc, hres, Bool.false_eq_true, if_false]
        refine ⟨?_, ?_, ?_⟩
        · rw [leaves_balance, leaves_calcHeightAndSize]
          simp only [leaves]
          rw [ih1, hleq]
        · rw [ordered_balance ((ordered_calcHeightAndSize _).symm ▸ hordl2)]
        · simp only [leaves]
          rw [lookupKV_append_of_right_none hrnone, ← ih3]
      · simp only [IAVLNode.set, if_pos hc, hres, if_true]
        refine ⟨?_, hordl2, ?_⟩
        · simp only [leaves]
          rw [ih1, hleq]
        · simp only [leaves]
          rw [lookupKV_append_of_right_none hrnone, ← ih3]
    · obtain ⟨ih1, ih2, ih3⟩ := ihr hor
      have hbl : ∀ p ∈ leaves l, bytesCompare k p.1 = .gt := fun p hp =>
        bytesCompare_lt_gt.mp
          (bytesCompare_lt_of_lt_of_ge (allKeysLt_iff.mp hlt p hp) hc)
      have hlnone : lookupKV (leaves l) k = none := by
        apply lookupKV_eq_none
        intro p hp he
        exact bytesCompare_ne_of_lt
          (bytesCompare_lt_gt.mpr (hbl p hp)) he
      have hleq : insertSorted (leaves l ++ leaves r) k v =
          leaves l ++ insertSorted (leaves r) k v :=
        insertSorted_append_right hbl
      have hordr2 : ordered (IAVLNode.node k0 h s l (r.set k v).1) = true := by
        rw [ordered_node_iff]
        refine ⟨hlt, ?_, hol, ih2⟩
        rw [allKeysGe_iff]
        intro p hp
        rw [ih1] at hp
        rcases mem_insertSorted hp with h1 | h1
        · rw [h1]
          exact hc
        · exact allKeysGe_iff.mp hge p h1
      rcases hres : r.set k v with ⟨r2, u⟩
      rw [hres] at ih1 ih2 ih3 hordr2
      cases u
      · simp only [IAVLNode.set, if_neg hc, hres, Bool.false_eq_true, if_false]
        refine ⟨?_, ?_, ?_⟩
        · rw [leaves_balance, leaves_calcHeightAndSize]
          simp only [leaves]
          rw [ih1, hleq]
        · rw [ordered_balance ((ordered_calcHeightAndSize _).symm ▸ hordr2)]
        · simp only [leaves]
          rw [lookupKV_append_of_left_none hlnone, ← ih3]
      · simp only [IAVLNode.set, if_neg hc, hres, if_true]
        refine ⟨?_, hordr2, ?_⟩
        · simp only [leaves]
          rw [ih1, hleq]
        · simp only [leaves]
          rw [lookupKV_append_of_left_none hlnone, ← ih3]

/-! The height/size-field and AVL-balance invariants and their preservation
by `balance`, `set` and `remove`. -/

theorem fieldsOK_node_iff {k : List Nat} {h s : Nat} {l r : IAVLNode} :
    fieldsOK (.node k h s l r) = true ↔
      h = max l.height r.height + 1 ∧ s = l.size + r.size ∧
        fieldsOK l = true ∧ fieldsOK r = true := by
  simp [fieldsOK, and_assoc]

theorem balancedOK_node_iff {k : List Nat} {h s : Nat} {l r : IAVLNode} :
    balancedOK (.node k h s l r) = true ↔
      l.height ≤ r.height + 1 ∧ r.height ≤ l.height + 1 ∧
        balancedOK l = true ∧ balancedOK r = true := by
  simp [balancedOK, and_assoc]

theorem height_leaf (k v : List Nat) : (IAVLNode.leaf k v).height = 0 := rfl

theorem height_node (k : List Nat) (h s : Nat) (l r : IAVLNode) :
    (IAVLNode.node k h s l r).height = h := rfl

theorem size_leaf (k v : List Nat) : (IAVLNode.leaf k v).size = 1 := rfl

theorem size_node (k : List Nat) (h s : Nat) (l r : IAVLNode) :
    (IAVLNode.node k h s l r).size = s := rfl

theorem left_node (k : List Nat) (h s : Nat) (l r : IAVLNode) :
    (IAVLNode.node k h s l r).left = l := rfl

theorem right_node (k : List Nat) (h s : Nat) (l r : IAVLNode) :
    (IAVLNode.node k h s l r).right = r := rfl

theorem leaf_of_height_zero {t : IAVLNode} (hf : fieldsOK t = true)
    (hh : t.height = 0) : ∃ k v, t = .leaf k v := by
  cases t with
  | leaf k v => exact ⟨k, v, rfl⟩
  | node k h s l r =>
    rw [fieldsOK_node_iff] at hf
    simp only [height_node, height_leaf] at hh
    exfalso
    obtain ⟨h1, -⟩ := hf
    omega

theorem size_of_leaf_shape {t : IAVLNode} (hf : fieldsOK t = true)
    (hh : t.height = 0) : t.size = 1 := by
  obtain ⟨k, v, rfl⟩ := leaf_of_height_zero hf hh
  rfl

/-- `balance` leaves a node with skew at most one unchanged. -/
theorem balance_of_skew_le_one {k : List Nat} {h s : Nat} {l r : IAVLNode}
    (h1 : l.height ≤ r.height + 1) (h2 : r.height ≤ l.height + 1) :
    balance (.node k h s l r) = .node k h s l r := by
  have c1 : ¬ (IAVLNode.node k h s l r).calcBalance > 1 := by
    simp only [IAVLNode.calcBalance]
    omega
  have c2 : ¬ (IAVLNode.node k h s l r).calcBalance < -1 := by
    simp only [IAVLNode.calcBalance]
    omega
  unfold balance
  rw [if_neg c1, if_neg c2]

theorem balance_left_left {k : List Nat} {h s : Nat} {l r : IAVLNode}
    (h1 : r.height + 1 < l.height) (h2 : l.right.height ≤ l.left.height) :
    balance (.node k h s l r) = rotateRight (.node k h s l r) := by
  have c1 : (IAVLNode.node k h s l r).calcBalance > 1 := by
    simp only [IAVLNode.calcBalance]
    omega
  have c2 : (IAVLNode.node k h s l r).left.calcBalance ≥ 0 := by
    simp only [IAVLNode.left, IAVLNode.calcBalance]
    cases l <;> simp [IAVLNode.calcBalance, IAVLNode.left,
      IAVLNode.right] at h2 ⊢ <;> omega
  unfold balance
  rw [if_pos c1, if_pos c2]

theorem balance_left_right {k : List Nat} {h s : Nat} {l r : IAVLNode}
    (h1 : r.height + 1 < l.height) (h2 : l.left.height < l.right.height) :
    balance (.node k h s l r) =
      rotateRight (.node k h s (rotateLeft l) r) := by
  have c1 : (IAVLNode.node k h s l r).calcBalance > 1 := by
    simp only [IAVLNode.calcBalance]
    omega
  have c2 : ¬ (IAVLNode.node k h s l r).left.calcBalance ≥ 0 := by
    simp only [IAVLNode.left, IAVLNode.calcBalance]
    cases l <;> simp [IAVLNode.calcBalance, IAVLNode.left,
      IAVLNode.right] at h2 ⊢ <;> omega
  unfold balance
  rw [if_pos c1, if_neg c2]

theorem balance_right_right {k : List Nat} {h s : Nat} {l r : IAVLNode}
    (h1 : l.height + 1 < r.height) (h2 : r.left.height ≤ r.right.height) :
    balance (.node k h s l r) = rotateLeft (.node k h s l r) := by
  have c0 : ¬ (IAVLNode.node k h s l r).calcBalance > 1 := by
    simp only [IAVLNode.calcBalance]
    omega
  have c1 : (IAVLNode.node k h s l r).calcBalance < -1 := by
    simp only [IAVLNode.calcBalance]
    omega
  have c2 : (IAVLNode.node k h s l r).right.calcBalance ≤ 0 := by
    simp only [IAVLNode.right, IAVLNode.calcBalance]
    cases r <;> simp [IAVLNode.calcBalance, IAVLNode.left,
      IAVLNode.right] at h2 ⊢ <;> omega
  unfold balance
  rw [if_neg c0, if_pos c1, if_pos c2]

theorem balance_right_left {k : List Nat} {h s : Nat} {l r : IAVLNode}
    (h1 : l.height + 1 < r.height) (h2 : r.right.height < r.left.height) :
    balance (.node k h s l r) =
      rotateLeft (.node k h s l (rotateRight r)) := by
  have c0 : ¬ (IAVLNode.node k h s l r).calcBalance > 1 := by
    simp only [IAVLNode.calcBalance]
    omega
  have c1 : (IAVLNode.node k h s l r).calcBalance < -1 := by
    simp only [IAVLNode.calcBalance]
    omega
  have c2 : ¬ (IAVLNode.node k h s l r).right.calcBalance ≤ 0 := by
    simp only [IAVLNode.right, IAVLNode.calcBalance]
    cases r <;> simp [IAVLNode.calcBalance, IAVLNode.left,
      IAVLNode.right] at h2 ⊢ <;> omega
  unfold balance
  rw [if_neg c0, if_pos c1, if_neg c2]

/-- Rebalancing a node whose left subtree is exactly two higher than the
right, with both subtrees well-formed: the result is well-formed, balanced,
preserves the leaf list and the total size, and its height is `r.height+2`
or `r.height+3`. -/
theorem rebalance_left_heavy {k : List Nat} {h s : Nat} {l r : IAVLNode}
    (hfl : fieldsOK l = true) (hbl : balancedOK l = true)
    (hfr : fieldsOK r = true) (hbr : balancedOK r = true)
    (hh : l.height = r.height + 2) :
    fieldsOK (balance (calcHeightAndSize (.node k h s l r))) = true ∧
      balancedOK (balance (calcHeightAndSize (.node k h s l r))) = true ∧
      leaves (balance (calcHeightAndSize (.node k h s l r))) =
        leaves l ++ leaves r ∧
      ((balance (calcHeightAndSize (.node k h s l r))).height = r.height + 2 ∨
        (balance (calcHeightAndSize (.node k h s l r))).height =
          r.height + 3) ∧
      (balance (calcHeightAndSize (.node k h s l r))).size =
        l.size + r.size := by
  cases l with
  | leaf lk lv =>
    exfalso
    simp only [height_node, height_leaf] at hh
    omega
  | node lk lh ls ll lr =>
    rw [fieldsOK_node_iff] at hfl
    obtain ⟨hlh, hls, hfll, hflr⟩ := hfl
    rw [balancedOK_node_iff] at hbl
    obtain ⟨hb1, hb2, hbll, hblr⟩ := hbl
    simp only [height_node, height_leaf] at hh
    have hcalc : calcHeightAndSize (.node k h s (.node lk lh ls ll lr) r) =
        .node k (max lh r.height + 1) (ls + r.size)
          (.node lk lh ls ll lr) r := rfl
    rw [hcalc]
    by_cases hab : lr.height ≤ ll.height
    · -- Left Left case
      rw [balance_left_left
          (by simp only [height_node, height_leaf]; omega)
          (by simp only [left_node, right_node]; exact hab)]
      rw [rotateRight_node]
      refine ⟨?_, ?_, ?_, ?_, ?_⟩
      · simp [fieldsOK_node_iff, height_node, height_leaf, size_node, size_leaf,
          hfll, hflr, hfr]
      · simp only [balancedOK_node_iff, height_node, height_leaf]
        refine ⟨by omega, by omega, hbll, by omega, by omega, hblr, hbr⟩
      · simp [leaves, List.append_assoc]
      · simp only [height_node, height_leaf]
        omega
      · simp only [size_node, size_leaf]
        omega
    · -- Left Right case
      have hlr1 : 0 < lr.height := by omega
      cases lr with
      | leaf a b =>
        exfalso
        simp only [height_node, height_leaf] at hlr1
        omega
      | node lrk lrh lrs c d =>
        rw [fieldsOK_node_iff] at hflr
        obtain ⟨hlrh, hlrs, hfc, hfd⟩ := hflr
        rw [balancedOK_node_iff] at hblr
        obtain ⟨hbc1, hbc2, hbc, hbd⟩ := hblr
        simp only [height_node, height_leaf] at hab hb1 hb2 hlh hlr1
        simp only [size_node, size_leaf] at hls
        rw [balance_left_right
            (by simp only [height_node, height_leaf]; omega)
            (by simp only [left_node, right_node, height_node,
              height_leaf]; omega)]
        rw [rotateLeft_node, rotateRight_node]
        refine ⟨?_, ?_, ?_, ?_, ?_⟩
        · simp [fieldsOK_node_iff, height_node, height_leaf, size_node, size_leaf,
            hfll, hfc, hfd, hfr]
        · simp only [balancedOK_node_iff, height_node, height_leaf]
          refine ⟨by omega, by omega, ⟨by omega, by omega, hbll, hbc⟩,
            by omega, by omega, hbd, hbr⟩
        · simp [leaves, List.append_assoc]
        · simp only [height_node, height_leaf]
          omega
        · simp only [size_node, size_leaf]
          omega

/-- Mirror image of `rebalance_left_heavy`. -/
theorem rebalance_right_heavy {k : List Nat} {h s : Nat} {l r : IAVLNode}
    (hfl : fieldsOK l = true) (hbl : balancedOK l = true)
    (hfr : fieldsOK r = true) (hbr : balancedOK r = true)
    (hh : r.height = l.height + 2) :
    fieldsOK (balance (calcHeightAndSize (.node k h s l r))) = true ∧
      balancedOK (balance (calcHeightAndSize (.node k h s l r))) = true ∧
      leaves (balance (calcHeightAndSize (.node k h s l r))) =
        leaves l ++ leaves r ∧
      ((balance (calcHeightAndSize (.node k h s l r))).height = l.height + 2 ∨
        (balance (calcHeightAndSize (.node k h s l r))).height =
          l.height + 3) ∧
      (balance (calcHeightAndSize (.node k h s l r))).size =
        l.size + r.size := by
  cases r with
  | leaf rk rv =>
    exfalso
    simp only [height_node, height_leaf] at hh
    omega
  | node rk rh rs rl rr =>
    rw [fieldsOK_node_iff] at hfr
    obtain ⟨hrh, hrs, hfrl, hfrr⟩ := hfr
    rw [balancedOK_node_iff] at hbr
    obtain ⟨hb1, hb2, hbrl, hbrr⟩ := hbr
    simp only [height_node, height_leaf] at hh
    have hcalc : calcHeightAndSize (.node k h s l (.node rk rh rs rl rr)) =
        .node k (max l.height rh + 1) (l.size + rs) l
          (.node rk rh rs rl rr) := rfl
    rw [hcalc]
    by_cases hab : rl.height ≤ rr.height
    · -- Right Right case
      rw [balance_right_right
          (by simp only [height_node, height_leaf]; omega)
          (by simp only [left_node, right_node]; exact hab)]
      rw [rotateLeft_node]
      refine ⟨?_, ?_, ?_, ?_, ?_⟩
      · simp [fieldsOK_node_iff, height_node, height_leaf, size_node, size_leaf,
          hfrl, hfrr, hfl]
      · simp only [balancedOK_node_iff, height_node, height_leaf]
        refine ⟨by omega, by omega, ⟨by omega, by omega, hbl, hbrl⟩, hbrr⟩
      · simp [leaves, List.append_assoc]
      · simp only [height_node, height_leaf]
        omega
      · simp only [size_node, size_leaf]
        omega
    · -- Right Left case
      have hrl1 : 0 < rl.height := by omega
      cases rl with
      | leaf a b =>
        exfalso
        simp only [height_node, height_leaf] at hrl1
        omega
      | node rlk rlh rls c d =>
        rw [fieldsOK_node_iff] at hfrl
        obtain ⟨hrlh, hrls, hfc, hfd⟩ := hfrl
        rw [balancedOK_node_iff] at hbrl
        obtain ⟨hbc1, hbc2, hbc, hbd⟩ := hbrl
        simp only [height_node, height_leaf] at hab hb1 hb2 hrh hrl1
        simp only [size_node, size_leaf] at hrs
        rw [balance_right_left
            (by simp only [height_node, height_leaf]; omega)
            (by simp only [left_node, right_node, height_node,
              height_leaf]; omega)]
        rw [rotateRight_node, rotateLeft_node]
        refine ⟨?_, ?_, ?_, ?_, ?_⟩
        · simp [fieldsOK_node_iff, height_node, height_leaf, size_node, size_leaf,
            hfl, hfc, hfd, hfrr]
        · simp only [balancedOK_node_iff, height_node, height_leaf]
          refine ⟨by omega, by omega, ⟨by omega, by omega, hbl, hbc⟩,
            by omega, by omega, hbd, hbrr⟩
        · simp [leaves, List.append_assoc]
        · simp only [height_node, height_leaf]
          omega
        · simp only [size_node, size_leaf]
          omega

/-- Full specification of `calcHeightAndSize` followed by `balance` on a
node whose children are well-formed with a height skew of at most two: the
combination `set` and `remove` always apply after modifying one child. -/
theorem rebalance_spec {k : List Nat} {h s : Nat} {l r : IAVLNode}
    (hfl : fieldsOK l = true) (hbl : balancedOK l = true)
    (hfr : fieldsOK r = true) (hbr : balancedOK r = true)
    (hs1 : l.height ≤ r.height + 2) (hs2 : r.height ≤ l.height + 2) :
    fieldsOK (balance (calcHeightAndSize (.node k h s l r))) = true ∧
      balancedOK (balance (calcHeightAndSize (.node k h s l r))) = true ∧
      leaves (balance (calcHeightAndSize (.node k h s l r))) =
        leaves l ++ leaves r ∧
      max l.height r.height ≤
        (balance (calcHeightAndSize (.node k h s l r))).height ∧
      (balance (calcHeightAndSize (.node k h s l r))).height ≤
        max l.height r.height + 1 ∧
      (l.height ≤ r.height + 1 → r.height ≤ l.height + 1 →
        (balance (calcHeightAndSize (.node k h s l r))).height =
          max l.height r.height + 1) ∧
      (balance (calcHeightAndSize (.node k h s l r))).size =
        l.size + r.size := by
  by_cases hc1 : l.height ≤ r.height + 1
  · by_cases hc2 : r.height ≤ l.height + 1
    · have hcalc : calcHeightAndSize (.node k h s l r) =
          .node k (max l.height r.height + 1) (l.size + r.size) l r := rfl
      rw [hcalc, balance_of_skew_le_one hc1 hc2]
      refine ⟨?_, ?_, rfl, ?_, ?_, ?_, ?_⟩
      · simp [fieldsOK_node_iff, hfl, hfr]
      · simp [balancedOK_node_iff, hbl, hbr, hc1, hc2]
      · simp only [height_node]
        omega
      · simp only [height_node]
        omega
      · intro _ _
        simp only [height_node]
      · simp only [size_node]
    · have hh : r.height = l.height + 2 := by omega
      obtain ⟨A, B, C, D, E⟩ := rebalance_right_heavy (k := k) (h := h)
        (s := s) hfl hbl hfr hbr hh
      refine ⟨A, B, C, ?_, ?_, ?_, E⟩
      · rcases D with D | D <;> omega
      · rcases D with D | D <;> omega
      · intro _ h2
        exact absurd h2 (by omega)
  · have hh : l.height = r.height + 2 := by omega
    obtain ⟨A, B, C, D, E⟩ := rebalance_left_heavy (k := k) (h := h)
      (s := s) hfl hbl hfr hbr hh
    refine ⟨A, B, C, ?_, ?_, ?_, E⟩
    · rcases D with D | D <;> omega
    · rcases D with D | D <;> omega
    · intro h1 _
      exact absurd h1 (by omega)

/-- Invariant preservation and height/size change of `set`: the result is
well-formed and balanced; overwriting keeps height and size, inserting
keeps or increments the height and increments the size. -/
theorem set_heights {t : IAVLNode} (k v : List Nat)
    (hf : fieldsOK t = true) (hb : balancedOK t = true) :
    fieldsOK (t.set k v).1 = true ∧ balancedOK (t.set k v).1 = true ∧
      ((t.set k v).2 = true →
        (t.set k v).1.height = t.height ∧ (t.set k v).1.size = t.size) ∧
      ((t.set k v).2 = false →
        t.height ≤ (t.set k v).1.height ∧
          (t.set k v).1.height ≤ t.height + 1 ∧
          (t.set k v).1.size = t.size + 1) := by
  induction t with
  | leaf k0 v0 =>
    cases hc : bytesCompare k k0
    · simp [IAVLNode.set, hc, fieldsOK, balancedOK, height_node, height_leaf,
        size_node, size_leaf, NewIAVLNode]
    · have hk : k = k0 := bytesCompare_eq_iff.mp hc
      subst hk
      simp [IAVLNode.set, hc, fieldsOK, balancedOK, height_leaf, size_leaf,
        bytesEqual, NewIAVLNode]
    · have hne : ¬ k0 = k := fun he => by
        rw [he, bytesCompare_self] at hc
        cases hc
      simp [IAVLNode.set, hc, fieldsOK, balancedOK, height_node, height_leaf,
        size_node, size_leaf, bytesEqual, hne, NewIAVLNode]
  | node k0 h s l r ihl ihr =>
    rw [fieldsOK_node_iff] at hf
    obtain ⟨hfh, hfs, hfl, hfr⟩ := hf
    rw [balancedOK_node_iff] at hb
    obtain ⟨hb1, hb2, hbl, hbr⟩ := hb
    by_cases hc : bytesCompare k k0 = .lt
    · obtain ⟨A1, A2, A3, A4⟩ := ihl hfl hbl
      rcases hres : l.set k v with ⟨l2, u⟩
      simp only [hres] at A1 A2 A3 A4
      cases u
      · obtain ⟨B1, B2, B3⟩ := A4 rfl
        simp only [IAVLNode.set, if_pos hc, hres, Bool.false_eq_true,
          if_false]
        obtain ⟨R1, R2, R3, R4, R5, R6, R7⟩ := rebalance_spec (k := k0)
          (h := h) (s := s) A1 A2 hfr hbr (by omega) (by omega)
        refine ⟨R1, R2, by simp, ?_⟩
        intro _
        refine ⟨?_, ?_, ?_⟩
        · simp only [height_node]
          by_cases hsm : l2.height ≤ r.height + 1
          · have := R6 hsm (by omega)
            omega
          · omega
        · simp only [height_node]
          omega
        · simp only [size_node]
          omega
      · obtain ⟨B1, B2⟩ := A3 rfl
        simp only [IAVLNode.set, if_pos hc, hres, if_true]
        refine ⟨?_, ?_, ?_, by simp⟩
        · rw [fieldsOK_node_iff]
          exact ⟨by omega, by omega, A1, hfr⟩
        · rw [balancedOK_node_iff]
          exact ⟨by omega, by omega, A2, hbr⟩
        · intro _
          exact ⟨rfl, rfl⟩
    · obtain ⟨A1, A2, A3, A4⟩ := ihr hfr hbr
      rcases hres : r.set k v with ⟨r2, u⟩
      simp only [hres] at A1 A2 A3 A4
      cases u
      · obtain ⟨B1, B2, B3⟩ := A4 rfl
        simp only [IAVLNode.set, if_neg hc, hres, Bool.false_eq_true,
          if_false]
        obtain ⟨R1, R2, R3, R4, R5, R6, R7⟩ := rebalance_spec (k := k0)
          (h := h) (s := s) hfl hbl A1 A2 (by omega) (by omega)
        refine ⟨R1, R2, by simp, ?_⟩
        intro _
        refine ⟨?_, ?_, ?_⟩
        · simp only [height_node]
          by_cases hsm : r2.height ≤ l.height + 1
          · have := R6 (by omega) hsm
            omega
          · omega
        · simp only [height_node]
          omega
        · simp only [size_node]
          omega
      · obtain ⟨B1, B2⟩ := A3 rfl
        simp only [IAVLNode.set, if_neg hc, hres, if_true]
        refine ⟨?_, ?_, ?_, by simp⟩
        · rw [fieldsOK_node_iff]
          exact ⟨by omega, by omega, hfl, A1⟩
        · rw [balancedOK_node_iff]
          exact ⟨by omega, by omega, hbl, A2⟩
        · intro _
          exact ⟨rfl, rfl⟩

/-- Invariant preservation and height/size change of successful `remove`:
the result is well-formed and balanced, one leaf smaller, and at most one
level shorter; a `none` result subtree means the tree was a single leaf. -/
theorem remove_heights {t : IAVLNode} (k : List Nat)
    (hf : fieldsOK t = true) (hb : balancedOK t = true) :
    (t.remove k).err = none →
      ((t.remove k).newSelf = none → t.height = 0) ∧
      (∀ t2, (t.remove k).newSelf = some t2 →
        fieldsOK t2 = true ∧ balancedOK t2 = true ∧
          t2.height ≤ t.height ∧ t.height ≤ t2.height + 1 ∧
          t2.size + 1 = t.size) := by
  induction t with
  | leaf k0 v0 =>
    simp only [IAVLNode.remove]
    by_cases hc : bytesEqual k0 k
    · simp only [if_pos hc]
      intro _
      refine ⟨fun _ => rfl, ?_⟩
      intro t2 ht2
      exact Option.noConfusion ht2
    · simp only [if_neg hc]
      intro he
      exact Option.noConfusion he
  | node k0 h s l r ihl ihr =>
    rw [fieldsOK_node_iff] at hf
    obtain ⟨hfh, hfs, hfl, hfr⟩ := hf
    rw [balancedOK_node_iff] at hb
    obtain ⟨hb1, hb2, hbl, hbr⟩ := hb
    by_cases hc : bytesCompare k k0 = .lt
    · have A := ihl hfl hbl
      rcases hres : l.remove k with ⟨ns, nk, val, er⟩
      simp only [hres] at A
      cases er with
      | some e =>
        simp only [IAVLNode.remove, if_pos hc, hres]
        intro he
        exact Option.noConfusion he
      | none =>
        obtain ⟨H0, H⟩ := A rfl
        cases ns with
        | none =>
          have hl0 : l.height = 0 := H0 rfl
          have hls1 : l.size = 1 := size_of_leaf_shape hfl hl0
          simp only [IAVLNode.remove, if_pos hc, hres]
          intro _
          refine ⟨fun hcon => Option.noConfusion hcon, ?_⟩
          intro t2 ht2
          have ht2e : r = t2 := by injection ht2
          subst ht2e
          refine ⟨hfr, hbr, ?_, ?_, ?_⟩ <;>
            simp only [height_node, size_node] <;> omega
        | some nl =>
          obtain ⟨N1, N2, N3, N4, N5⟩ := H nl rfl
          obtain ⟨R1, R2, R3, R4, R5, R6, R7⟩ := rebalance_spec (k := k0)
            (h := h) (s := s) N1 N2 hfr hbr (by omega) (by omega)
          simp only [IAVLNode.remove, if_pos hc, hres]
          intro _
          refine ⟨fun hcon => Option.noConfusion hcon, ?_⟩
          intro t2 ht2
          have ht2e : balance (calcHeightAndSize (.node k0 h s nl r)) = t2 :=
            by injection ht2
          subst ht2e
          refine ⟨R1, R2, ?_, ?_, ?_⟩
          · simp only [height_node]
            omega
          · simp only [height_node]
            by_cases hsm1 : nl.height ≤ r.height + 1
            · by_cases hsm2 : r.height ≤ nl.height + 1
              · have := R6 hsm1 hsm2
                omega
              · omega
            · omega
          · simp only [size_node]
            omega
    · have A := ihr hfr hbr
      rcases hres : r.remove k with ⟨ns, nk, val, er⟩
      simp only [hres] at A
      cases er with
      | some e =>
        simp only [IAVLNode.remove, if_neg hc, hres]
        intro he
        exact Option.noConfusion he
      | none =>
        obtain ⟨H0, H⟩ := A rfl
        cases ns with
        | none =>
          have hr0 : r.height = 0 := H0 rfl
          have hrs1 : r.size = 1 := size_of_leaf_shape hfr hr0
          simp only [IAVLNode.remove, if_neg hc, hres]
          intro _
          refine ⟨fun hcon => Option.noConfusion hcon, ?_⟩
          intro t2 ht2
          have ht2e : l = t2 := by injection ht2
          subst ht2e
          refine ⟨hfl, hbl, ?_, ?_, ?_⟩ <;>
            simp only [height_node, size_node] <;> omega
        | some nr =>
          obtain ⟨N1, N2, N3, N4, N5⟩ := H nr rfl
          cases nk with
          | none =>
            obtain ⟨R1, R2, R3, R4, R5, R6, R7⟩ := rebalance_spec (k := k0)
              (h := h) (s := s) hfl hbl N1 N2 (by omega) (by omega)
            simp only [IAVLNode.remove, if_neg hc, hres]
            intro _
            refine ⟨fun hcon => Option.noConfusion hcon, ?_⟩
            intro t2 ht2
            have ht2e : balance (calcHeightAndSize (.node k0 h s l nr)) = t2 :=
              by injection ht2
            subst ht2e
            refine ⟨R1, R2, ?_, ?_, ?_⟩
            · simp only [height_node]
              omega
            · simp only [height_node]
              by_cases hsm1 : nr.height ≤ l.height + 1
              · by_cases hsm2 : l.height ≤ nr.height + 1
                · have := R6 hsm2 hsm1
                  omega
                · omega
              · omega
            · simp only [size_node]
              omega
          | some nkv =>
            obtain ⟨R1, R2, R3, R4, R5, R6, R7⟩ := rebalance_spec (k := nkv)
              (h := h) (s := s) hfl hbl N1 N2 (by omega) (by omega)
            simp only [IAVLNode.remove, if_neg hc, hres]
            intro _
            refine ⟨fun hcon => Option.noConfusion hcon, ?_⟩
            intro t2 ht2
            have ht2e : balance (calcHeightAndSize (.node nkv h s l nr)) = t2 :=
              by injection ht2
            subst ht2e
            refine ⟨R1, R2, ?_, ?_, ?_⟩
            · simp only [height_node]
              omega
            · simp only [height_node]
              by_cases hsm1 : nr.height ≤ l.height + 1
              · by_cases hsm2 : l.height ≤ nr.height + 1
                · have := R6 hsm2 hsm1
                  omega
                · omega
              · omega
            · simp only [size_node]
              omega

end merkle

namespace merkle

open IAVLNode

/-- Removing a key bound by no leaf fails with `NotFound` and hands back the
original root, no value and no new key. -/
theorem remove_absent {t : IAVLNode} {k : List Nat}
    (h : ∀ p ∈ leaves t, p.1 ≠ k) :
    t.remove k = ⟨some t, none, none, some (.notFound k)⟩ := by
  induction t with
  | leaf k0 v0 =>
    have hne : ¬ (k0 = k) := h (k0, v0) (List.mem_cons_self _ _)
    simp [IAVLNode.remove, bytesEqual, hne]
  | node k0 hh s l r ihl ihr =>
    have hml : ∀ p, p ∈ leaves l → p ∈ leaves (IAVLNode.node k0 hh s l r) := by
      intro p hp
      simp only [leaves, List.mem_append]
      exact Or.inl hp
    have hmr : ∀ p, p ∈ leaves r → p ∈ leaves (IAVLNode.node k0 hh s l r) := by
      intro p hp
      simp only [leaves, List.mem_append]
      exact Or.inr hp
    have hl := ihl fun p hp => h p (hml p hp)
    have hr := ihr fun p hp => h p (hmr p hp)
    by_cases hc : bytesCompare k k0 = .lt
    · simp [IAVLNode.remove, hc, hl]
    · simp [IAVLNode.remove, hc, hr]

/-- With correct size fields, the stored size is the number of leaves. -/
theorem size_eq_leaves_length {t : IAVLNode} (hf : fieldsOK t = true) :
    t.size = (leaves t).length := by
  induction t with
  | leaf k v => rfl
  | node k h s l r ihl ihr =>
    rw [fieldsOK_node_iff] at hf
    obtain ⟨h1, h2, h3, h4⟩ := hf
    simp only [size_node, leaves, List.length_append]
    rw [h2, ihl h3, ihr h4]

theorem invRoot_treeSet {root : Option IAVLNode} (k v : List Nat)
    (h : invRoot root = true) : invRoot (treeSet root k v).1 = true := by
  cases root with
  | none => simp [treeSet, invRoot, NewIAVLNode, fieldsOK, balancedOK]
  | some t =>
    simp only [invRoot, Bool.and_eq_true] at h
    obtain ⟨A1, A2, -, -⟩ := set_heights k v h.1 h.2
    simp [treeSet, invRoot, A1, A2]

theorem invRoot_treeRemove {root : Option IAVLNode} (k : List Nat)
    (h : invRoot root = true) : invRoot (treeRemove root k).1 = true := by
  cases root with
  | none => simp [treeRemove, invRoot]
  | some t =>
    simp only [invRoot, Bool.and_eq_true] at h
    have A := remove_heights k h.1 h.2
    rcases hres : t.remove k with ⟨ns, nk, val, er⟩
    simp only [hres] at A
    cases er with
    | some e => simp [treeRemove, hres, invRoot, h.1, h.2]
    | none =>
      obtain ⟨H0, H⟩ := A rfl
      cases ns with
      | none => simp [treeRemove, hres, invRoot]
      | some t2 =>
        obtain ⟨N1, N2, -, -, -⟩ := H t2 rfl
        simp [treeRemove, hres, invRoot, N1, N2]

theorem invRoot_applyOp {root : Option IAVLNode} (op : Op)
    (h : invRoot root = true) : invRoot (applyOp root op) = true := by
  cases op with
  | setOp k v => exact invRoot_treeSet k v h
  | removeOp k => exact invRoot_treeRemove k h

theorem invRoot_applyOps (ops : List Op) :
    ∀ root, invRoot root = true → invRoot (applyOps ops root) = true := by
  induction ops with
  | nil => exact fun root h => h
  | cons op rest ih =>
    intro root h
    exact ih _ (invRoot_applyOp op h)

/-- `treeSet` preserves full well-formedness and acts on the leaf list as a
sorted insertion. -/
theorem wfRoot_treeSet {root : Option IAVLNode} (k v : List Nat)
    (h : wfRoot root = true) :
    wfRoot (treeSet root k v).1 = true ∧
      treeLeaves (treeSet root k v).1 = insertSorted (treeLeaves root) k v := by
  cases root with
  | none =>
    refine ⟨?_, rfl⟩
    simp [treeSet, wfRoot, wf, NewIAVLNode, fieldsOK, balancedOK, ordered]
  | some t =>
    simp only [wfRoot, wf, Bool.and_eq_true] at h
    obtain ⟨⟨hf, hb⟩, ho⟩ := h
    obtain ⟨A1, A2, -, -⟩ := set_heights k v hf hb
    obtain ⟨B1, B2, -⟩ := set_contents k v ho
    constructor
    · simp [treeSet, wfRoot, wf, A1, A2, B2]
    · simpa [treeSet, treeLeaves] using B1

theorem wfRoot_build_aux (l : List (List Nat × List Nat)) :
    ∀ root m, wfRoot root = true → treeLeaves root = m →
      wfRoot (l.foldl (fun r p => (treeSet r p.1 p.2).1) root) = true ∧
        treeLeaves (l.foldl (fun r p => (treeSet r p.1 p.2).1) root) =
          l.foldl insertModel m := by
  induction l with
  | nil => exact fun root m h hm => ⟨h, hm⟩
  | cons p rest ih =>
    intro root m h hm
    obtain ⟨W1, W2⟩ := wfRoot_treeSet p.1 p.2 h
    simp only [List.foldl_cons]
    exact ih _ _ W1 (by rw [W2, hm]; rfl)

theorem wfRoot_build (l : List (List Nat × List Nat)) :
    wfRoot (build l) = true ∧ treeLeaves (build l) = buildModel l := by
  exact wfRoot_build_aux l none [] rfl rfl

end merkle

namespace merkle

open IAVLNode

theorem length_insertSorted {m : List (List Nat × List Nat)}
    {k v : List Nat} (h : lookupKV m k = none) :
    (insertSorted m k v).length = m.length + 1 := by
  induction m with
  | nil => rfl
  | cons p rest ih =>
    obtain ⟨k0, v0⟩ := p
    simp only [lookupKV] at h
    by_cases h0 : k0 = k
    · rw [if_pos h0] at h
      exact Option.noConfusion h
    · rw [if_neg h0] at h
      simp only [insertSorted]
      cases hc : bytesCompare k k0 with
      | lt => rfl
      | eq => exact absurd (bytesCompare_eq_iff.mp hc).symm h0
      | gt => simp [ih h]

theorem any_eq_lookupKV_isSome (m : List (List Nat × List Nat))
    (k : List Nat) :
    (m.any fun p => decide (p.1 = k)) = (lookupKV m k).isSome := by
  induction m with
  | nil => rfl
  | cons p rest ih =>
    obtain ⟨k0, v0⟩ := p
    by_cases h0 : k0 = k <;> simp [lookupKV, h0, ih]

theorem lookupKV_foldl_insertModel (l : List (List Nat × List Nat)) :
    ∀ (m : List (List Nat × List Nat)) (k : List Nat),
      lookupKV (l.foldl insertModel m) k =
        match listGetLast l k with
        | some v => some v
        | none => lookupKV m k := by
  induction l with
  | nil => intro m k; rfl
  | cons p rest ih =>
    intro m k
    obtain ⟨k0, v0⟩ := p
    simp only [List.foldl_cons, listGetLast]
    rw [ih]
    cases hrest : listGetLast rest k with
    | some v => rfl
    | none =>
      simp only [insertModel, lookupKV_insertSorted]
      by_cases h1 : k = k0
      · subst h1
        simp
      · have h2 : ¬ (k0 = k) := fun he => h1 he.symm
        simp [h1, h2]

theorem listGetLast_eq_none_iff {l : List (List Nat × List Nat)}
    {k : List Nat} :
    listGetLast l k = none ↔ k ∉ l.map Prod.fst := by
  induction l with
  | nil => simp [listGetLast]
  | cons p rest ih =>
    obtain ⟨k0, v0⟩ := p
    simp only [listGetLast, List.map_cons, List.mem_cons, not_or]
    cases hrest : listGetLast rest k with
    | some v =>
      have hmem : ¬ (k ∉ rest.map Prod.fst) := by
        rw [← ih]
        simp [hrest]
      constructor
      · intro hcon
        exact Option.noConfusion hcon
      · rintro ⟨-, h2⟩
        exact absurd h2 hmem
    | none =>
      have hmem : k ∉ rest.map Prod.fst := ih.mp hrest
      by_cases h1 : k = k0
      · simp [h1, hmem]
      · simp [h1, hmem]

theorem listGetLast_eq_some_iff {l : List (List Nat × List Nat)}
    (hnd : (l.map Prod.fst).Nodup) {k v : List Nat} :
    listGetLast l k = some v ↔ (k, v) ∈ l := by
  induction l generalizing v with
  | nil => simp [listGetLast]
  | cons p rest ih =>
    obtain ⟨k0, v0⟩ := p
    simp only [List.map_cons, List.nodup_cons] at hnd
    obtain ⟨hk0, hndr⟩ := hnd
    simp only [listGetLast, List.mem_cons]
    cases hrest : listGetLast rest k with
    | some w =>
      have hwmem : (k, w) ∈ rest := (ih hndr).mp hrest
      have hkrest : k ∈ rest.map Prod.fst :=
        List.mem_map.mpr ⟨(k, w), hwmem, rfl⟩
      have hkne : ¬ (k = k0) := fun he => hk0 (he ▸ hkrest)
      constructor
      · intro hv
        have hw : w = v := by injection hv
        exact Or.inr (hw ▸ hwmem)
      · rintro (hv | hv)
        · exfalso
          have : k = k0 := by
            have := congrArg Prod.fst hv
            simpa using this
          exact hkne this
        · have : listGetLast rest k = some v := (ih hndr).mpr hv
          rw [hrest] at this
          exact this
    | none =>
      have hnomem : k ∉ rest.map Prod.fst := listGetLast_eq_none_iff.mp hrest
      by_cases h1 : k = k0
      · subst h1
        rw [if_pos rfl]
        constructor
        · intro hv
          have hvv : v0 = v := by injection hv
          exact Or.inl (by rw [hvv])
        · rintro (hv | hv)
          · have hvv : v = v0 := by
              have := congrArg Prod.snd hv
              simpa using this
            rw [hvv]
          · exfalso
            exact hnomem (List.mem_map.mpr ⟨(k, v), hv, rfl⟩)
      · rw [if_neg h1]
        constructor
        · intro hcon
          exact Option.noConfusion hcon
        · rintro (hv | hv)
          · exfalso
            have : k = k0 := by
              have := congrArg Prod.fst hv
              simpa using this
            exact h1 this
          · exfalso
            exact hnomem (List.mem_map.mpr ⟨(k, v), hv, rfl⟩)

theorem listGetLast_perm {l1 l2 : List (List Nat × List Nat)}
    (h : l1.Perm l2) (hnd : (l1.map Prod.fst).Nodup) (k : List Nat) :
    listGetLast l1 k = listGetLast l2 k := by
  have hnd2 : (l2.map Prod.fst).Nodup := ((h.map Prod.fst).nodup_iff).mp hnd
  cases ha : listGetLast l1 k with
  | some v =>
    have : (k, v) ∈ l2 := h.mem_iff.mp ((listGetLast_eq_some_iff hnd).mp ha)
    exact ((listGetLast_eq_some_iff hnd2).mpr this).symm
  | none =>
    have : k ∉ l2.map Prod.fst := by
      intro hmem
      exact (listGetLast_eq_none_iff.mp ha) ((h.map Prod.fst).mem_iff.mpr hmem)
    exact (listGetLast_eq_none_iff.mpr this).symm

theorem treeGet_build (l : List (List Nat × List Nat)) (k : List Nat) :
    treeGet (build l) k = listGetLast l k := by
  obtain ⟨W, L⟩ := wfRoot_build l
  have h2 := lookupKV_foldl_insertModel l [] k
  cases hb : build l with
  | none =>
    rw [hb] at L
    have hnil : buildModel l = [] := L.symm
    rw [show l.foldl insertModel [] = buildModel l from rfl, hnil] at h2
    cases hlast : listGetLast l k with
    | none => simp [treeGet]
    | some v =>
      rw [hlast] at h2
      exact absurd h2.symm (by simp [lookupKV])
  | some t =>
    rw [hb] at W L
    simp only [wfRoot, wf, Bool.and_eq_true] at W
    have hg : t.get k = lookupKV (leaves t) k := get_eq_lookupKV W.2
    simp only [treeLeaves] at L
    simp only [treeGet, hg, L]
    rw [show l.foldl insertModel [] = buildModel l from rfl] at h2
    rw [h2]
    cases listGetLast l k <;> rfl

theorem length_buildModel_aux (l : List (List Nat × List Nat)) :
    ∀ m, (l.map Prod.fst).Nodup →
      (∀ p ∈ l, lookupKV m p.1 = none) →
      (l.foldl insertModel m).length = m.length + l.length := by
  induction l with
  | nil => simp
  | cons p rest ih =>
    intro m hnd hfresh
    obtain ⟨k0, v0⟩ := p
    simp only [List.map_cons, List.nodup_cons] at hnd
    obtain ⟨hk0, hndr⟩ := hnd
    have h0 : lookupKV m k0 = none := hfresh (k0, v0) (List.mem_cons_self _ _)
    have hfresh2 : ∀ p ∈ rest, lookupKV (insertModel m (k0, v0)) p.1 = none := by
      intro p hp
      have hne : ¬ (k0 = p.1) := by
        intro he
        exact hk0 (List.mem_map.mpr ⟨p, hp, he.symm⟩)
      rw [insertModel, lookupKV_insertSorted, if_neg hne]
      exact hfresh p (List.mem_cons_of_mem _ hp)
    simp only [List.foldl_cons, List.length_cons]
    rw [ih (insertModel m (k0, v0)) hndr hfresh2]
    have hlen : (insertModel m (k0, v0)).length = m.length + 1 :=
      length_insertSorted h0
    omega

theorem treeSize_build (l : List (List Nat × List Nat))
    (hnd : (l.map Prod.fst).Nodup) : treeSize (build l) = l.length := by
  obtain ⟨W, L⟩ := wfRoot_build l
  have hlen : (buildModel l).length = l.length := by
    have := length_buildModel_aux l [] hnd (fun p hp => rfl)
    simpa [buildModel] using this
  cases hb : build l with
  | none =>
    rw [hb] at L
    have : buildModel l = [] := L.symm
    rw [this] at hlen
    simp only [treeSize]
    simpa using hlen
  | some t =>
    rw [hb] at W L
    simp only [wfRoot, wf, Bool.and_eq_true] at W
    simp only [treeLeaves] at L
    simp only [treeSize]
    rw [size_eq_leaves_length W.1.1, L, hlen]

end merkle

namespace merkle

open IAVLNode

set_option maxRecDepth 100000 in
set_option maxHeartbeats 8000000 in
/-- C1 (counterexample): the claim that two IAVL+ trees built from the same
distinct-key set by `set` in any two insertion orders have identical root
hashes is false: inserting the single-byte keys 0,1,2,3,4 ascending versus
descending produces trees of different shapes, and their `hash()` roots
differ. -/
theorem c1_insertion_order_counterexample :
    treeHash (build [([0], []), ([1], []), ([2], []), ([3], []), ([4], [])]) ≠
      treeHash
        (build [([4], []), ([3], []), ([2], []), ([1], []), ([0], [])]) := by
  decide

/-- C1 (amended): building two IAVL+ trees by `set` from two insertion
orders of the same distinct-key pairs yields trees with the same contents —
`get` agrees on every key — and the same size; the root hashes, however,
may differ (see the counterexample). -/
theorem c1_insertion_order_amended (l1 l2 : List (List Nat × List Nat))
    (hperm : l1.Perm l2) (hnd : (l1.map Prod.fst).Nodup) :
    (∀ k, treeGet (build l1) k = treeGet (build l2) k) ∧
      treeSize (build l1) = treeSize (build l2) := by
  constructor
  · intro k
    rw [treeGet_build, treeGet_build]
    exact listGetLast_perm hperm hnd k
  · rw [treeSize_build l1 hnd,
      treeSize_build l2 (((hperm.map Prod.fst).nodup_iff).mp hnd)]
    exact hperm.length_eq

/-- Witness for the amended C1 at a concrete permutation. -/
theorem c1_insertion_order_amended_witness :
    (∀ k, treeGet (build [([1], [7]), ([2], [8])]) k =
      treeGet (build [([2], [8]), ([1], [7])]) k) ∧
      treeSize (build [([1], [7]), ([2], [8])]) =
        treeSize (build [([2], [8]), ([1], [7])]) :=
  c1_insertion_order_amended [([1], [7]), ([2], [8])]
    [([2], [8]), ([1], [7])] (by decide) (by decide)

/-- C3: after any sequence of `set` and `remove` operations starting from a
single-leaf IAVL+ tree, every inner node of the resulting tree has
`|height(left) − height(right)| ≤ 1` and `size = size(left) + size(right)`
in its stored fields (leaves have height 0 and size 1 by construction:
`NewIAVLNode` is the only leaf constructor). -/
theorem c3_avl_invariants (k v : List Nat) (ops : List Op) (t : IAVLNode)
    (h : applyOps ops (some (IAVLNode.NewIAVLNode k v)) = some t) :
    fieldsOK t = true ∧ balancedOK t = true := by
  have hinit : invRoot (some (IAVLNode.NewIAVLNode k v)) = true := by
    simp [invRoot, NewIAVLNode, fieldsOK, balancedOK]
  have hres := invRoot_applyOps ops _ hinit
  rw [h] at hres
  simpa [invRoot, Bool.and_eq_true] using hres

/-- Witness for C3 at a concrete operation sequence. -/
theorem c3_avl_invariants_witness :
    fieldsOK (IAVLNode.node [6] 2 3 (.leaf [4] [2])
        (.node [7] 1 2 (.leaf [6] [1]) (.leaf [7] [3]))) = true ∧
      balancedOK (IAVLNode.node [6] 2 3 (.leaf [4] [2])
        (.node [7] 1 2 (.leaf [6] [1]) (.leaf [7] [3]))) = true :=
  c3_avl_invariants [5] [7]
    [Op.setOp [6] [1], Op.setOp [4] [2], Op.removeOp [5], Op.setOp [7] [3]]
    _ (by decide)

/-- C4: removing a key not present in the tree fails with `NotFound`,
returns no value and no promoted key, and hands back the original root
unchanged. -/
theorem c4_remove_absent_notfound (t : IAVLNode) (k : List Nat)
    (h : containsKey t k = false) :
    t.remove k =
      ⟨some t, none, none, some (IAVLNode.MerkleError.notFound k)⟩ := by
  simp only [containsKey, List.any_eq_false, decide_eq_true_eq] at h
  exact remove_absent h

/-- Witness for C4 at a concrete tree and key. -/
theorem c4_remove_absent_notfound_witness :
    (IAVLNode.leaf [1] [2]).remove [3] =
      ⟨some (.leaf [1] [2]), none, none,
        some (IAVLNode.MerkleError.notFound [3])⟩ :=
  c4_remove_absent_notfound (.leaf [1] [2]) [3] (by decide)

/-- C5: on a well-formed tree, `set(k, v)` reports `updated = true` exactly
when `k` was present, afterwards `get(k)` returns `v`, and when `k` was
absent the root size grows by one. -/
theorem c5_set_updated_get_size (t : IAVLNode) (k v : List Nat)
    (hw : wf t = true) :
    ((t.set k v).2 = true ↔ containsKey t k = true) ∧
      (t.set k v).1.get k = some v ∧
      ((t.set k v).2 = false → (t.set k v).1.size = t.size + 1) := by
  simp only [wf, Bool.and_eq_true] at hw
  obtain ⟨⟨hf, hb⟩, ho⟩ := hw
  obtain ⟨L1, L2, L3⟩ := set_contents k v ho
  obtain ⟨-, -, -, A4⟩ := set_heights k v hf hb
  refine ⟨?_, ?_, ?_⟩
  · rw [L3, containsKey, any_eq_lookupKV_isSome]
  · rw [get_eq_lookupKV L2, L1, lookupKV_insertSorted, if_pos rfl]
  · intro hu
    exact (A4 hu).2.2

/-- Witness for C5 at a concrete tree, key and value. -/
theorem c5_set_updated_get_size_witness :
    (((IAVLNode.leaf [1] [5]).set [2] [6]).2 = true ↔
        containsKey (IAVLNode.leaf [1] [5]) [2] = true) ∧
      ((IAVLNode.leaf [1] [5]).set [2] [6]).1.get [2] = some [6] ∧
      (((IAVLNode.leaf [1] [5]).set [2] [6]).2 = false →
        ((IAVLNode.leaf [1] [5]).set [2] [6]).1.size =
          (IAVLNode.leaf [1] [5]).size + 1) :=
  c5_set_updated_get_size (.leaf [1] [5]) [2] [6] (by decide)

end merkle

namespace consensus

theorem GetById_id {vset : ValidatorSet} {id : Nat} {v : Validator}
    (h : vset.GetById id = some v) : v.Id = id := by
  have h2 := List.find?_some h
  simpa using h2

theorem verifyVotes_sound (sigOk : Validator → VoteDoc → Signature → Bool)
    (vset : ValidatorSet) (doc : VoteDoc) (sigs : List Signature) :
    ∀ seen power s' p',
      verifyVotes sigOk vset doc sigs seen power = some (s', p') →
      (∀ sig ∈ sigs, (vset.GetById sig.SignerId).isSome = true ∧
        (∀ val, vset.GetById sig.SignerId = some val →
          sigOk val doc sig = true) ∧ sig.SignerId ∉ seen) ∧
      (sigs.map Signature.SignerId).Nodup ∧
      p' = signersPowerW vset sigs power ∧
      (∀ x, x ∈ s' ↔ x ∈ sigs.map Signature.SignerId ∨ x ∈ seen) := by
  induction sigs with
  | nil =>
    intro seen power s' p' h
    simp only [verifyVotes, Option.some.injEq, Prod.mk.injEq] at h
    obtain ⟨rfl, rfl⟩ := h
    refine ⟨by simp, by simp, by simp [signersPowerW], by simp⟩
  | cons sig rest ih =>
    intro seen power s' p' h
    simp only [verifyVotes] at h
    by_cases hseen : sig.SignerId ∈ seen
    · rw [if_pos hseen] at h
      exact Option.noConfusion h
    · rw [if_neg hseen] at h
      cases hid : vset.GetById sig.SignerId with
      | none =>
        rw [hid] at h
        exact Option.noConfusion h
      | some validator =>
        rw [hid] at h
        simp only [] at h
        by_cases hsig : sigOk validator doc sig = true
        · rw [if_pos hsig] at h
          have hvid : validator.Id = sig.SignerId := GetById_id hid
          obtain ⟨IH1, IH2, IH3, IH4⟩ := ih _ _ _ _ h
          refine ⟨?_, ?_, ?_, ?_⟩
          · intro s hs
            rcases List.mem_cons.mp hs with rfl | hs2
            · refine ⟨by simp [hid], ?_, hseen⟩
              intro val hval
              rw [hid] at hval
              injection hval with hval
              rw [← hval]
              exact hsig
            · obtain ⟨a, b, c⟩ := IH1 s hs2
              refine ⟨a, b, fun hmem => c (List.mem_cons_of_mem _ hmem)⟩
          · simp only [List.map_cons, List.nodup_cons]
            refine ⟨?_, IH2⟩
            intro hmem
            obtain ⟨s, hs, hsid⟩ := List.mem_map.mp hmem
            have hc := (IH1 s hs).2.2
            apply hc
            rw [hsid, ← hvid]
            exact List.mem_cons_self _ _
          · rw [IH3]
            simp [signersPowerW, hid]
          · intro x
            rw [IH4 x, hvid]
            simp only [List.map_cons, List.mem_cons]
            tauto
        · rw [if_neg hsig] at h
          exact Option.noConfusion h

theorem verifyVotes_complete (sigOk : Validator → VoteDoc → Signature → Bool)
    (vset : ValidatorSet) (doc : VoteDoc) (sigs : List Signature) :
    ∀ seen power,
      (∀ sig ∈ sigs, (vset.GetById sig.SignerId).isSome = true ∧
        (∀ val, vset.GetById sig.SignerId = some val →
          sigOk val doc sig = true) ∧ sig.SignerId ∉ seen) →
      (sigs.map Signature.SignerId).Nodup →
      ∃ s' p', verifyVotes sigOk vset doc sigs seen power = some (s', p') := by
  induction sigs with
  | nil =>
    intro seen power _ _
    exact ⟨seen, power, rfl⟩
  | cons sig rest ih =>
    intro seen power hall hnd
    obtain ⟨h1, h2, h3⟩ := hall sig (List.mem_cons_self _ _)
    cases hid : vset.GetById sig.SignerId with
    | none =>
      rw [hid] at h1
      simp at h1
    | some validator =>
      have hvid := GetById_id hid
      have hsig := h2 validator hid
      simp only [verifyVotes, if_neg h3, hid, if_pos hsig]
      apply ih
      · intro s hs
        obtain ⟨a, b, c⟩ := hall s (List.mem_cons_of_mem _ hs)
        refine ⟨a, b, ?_⟩
        intro hc
        rcases List.mem_cons.mp hc with he | he
        · simp only [List.map_cons, List.nodup_cons] at hnd
          exact hnd.1 (List.mem_map.mpr ⟨s, hs, by rw [he, hvid]⟩)
        · exact c he
      · simp only [List.map_cons, List.nodup_cons] at hnd
        exact hnd.2

theorem verifyCommits_sound (sigOk : Validator → VoteDoc → Signature → Bool)
    (vset : ValidatorSet) (height : Nat) (blockHash : List Nat)
    (sigs : List Signature) :
    ∀ rounds seen power s' p',
      verifyCommits sigOk vset height blockHash sigs rounds seen power =
        .going s' p' →
      (∀ sig ∈ sigs, (vset.GetById sig.SignerId).isSome = true ∧
        sig.SignerId ∉ seen) ∧
      (∀ pr ∈ sigs.zip rounds, ∀ val,
        vset.GetById pr.1.SignerId = some val →
        sigOk val (GenVoteDocument .commit height pr.2 blockHash) pr.1 =
          true) ∧
      (sigs.map Signature.SignerId).Nodup ∧
      p' = signersPowerW vset sigs power := by
  induction sigs with
  | nil =>
    intro rounds seen power s' p' h
    simp only [verifyCommits, LoopState.going.injEq] at h
    obtain ⟨rfl, rfl⟩ := h
    refine ⟨by simp, by simp, by simp, by simp [signersPowerW]⟩
  | cons sig rest ih =>
    intro rounds seen power s' p' h
    cases rounds with
    | nil =>
      simp only [verifyCommits] at h
      exact LoopState.noConfusion h
    | cons round rrest =>
      simp only [verifyCommits] at h
      by_cases hseen : sig.SignerId ∈ seen
      · rw [if_pos hseen] at h
        exact LoopState.noConfusion h
      · rw [if_neg hseen] at h
        cases hid : vset.GetById sig.SignerId with
        | none =>
          rw [hid] at h
          exact LoopState.noConfusion h
        | some validator =>
          rw [hid] at h
          simp only [] at h
          by_cases hsig : sigOk validator
              (GenVoteDocument .commit height round blockHash) sig = true
          · rw [if_pos hsig] at h
            have hvid : validator.Id = sig.SignerId := GetById_id hid
            obtain ⟨IH1, IH2, IH3, IH4⟩ := ih _ _ _ _ _ h
            refine ⟨?_, ?_, ?_, ?_⟩
            · intro s hs
              rcases List.mem_cons.mp hs with rfl | hs2
              · exact ⟨by simp [hid], hseen⟩
              · obtain ⟨a, c⟩ := IH1 s hs2
                exact ⟨a, fun hmem => c (List.mem_cons_of_mem _ hmem)⟩
            · intro pr hpr val hval
              rcases List.mem_cons.mp hpr with rfl | hpr2
              · rw [hid] at hval
                injection hval with hval
                rw [← hval]
                exact hsig
              · exact IH2 pr hpr2 val hval
            · simp only [List.map_cons, List.nodup_cons]
              refine ⟨?_, IH3⟩
              intro hmem
              obtain ⟨s, hs, hsid⟩ := List.mem_map.mp hmem
              have hc := (IH1 s hs).2
              apply hc
              rw [hsid, ← hvid]
              exact List.mem_cons_self _ _
            · rw [IH4]
              simp [signersPowerW, hid]
          · rw [if_neg hsig] at h
            exact LoopState.noConfusion h

theorem verifyCommits_complete
    (sigOk : Validator → VoteDoc → Signature → Bool) (vset : ValidatorSet)
    (height : Nat) (blockHash : List Nat) (sigs : List Signature) :
    ∀ rounds seen power,
      sigs.length ≤ rounds.length →
      (∀ sig ∈ sigs, (vset.GetById sig.SignerId).isSome = true ∧
        sig.SignerId ∉ seen) →
      (∀ pr ∈ sigs.zip rounds, ∀ val,
        vset.GetById pr.1.SignerId = some val →
        sigOk val (GenVoteDocument .commit height pr.2 blockHash) pr.1 =
          true) →
      (sigs.map Signature.SignerId).Nodup →
      ∃ s' p',
        verifyCommits sigOk vset height blockHash sigs rounds seen power =
          .going s' p' := by
  induction sigs with
  | nil =>
    intro rounds seen power _ _ _ _
    exact ⟨seen, power, rfl⟩
  | cons sig rest ih =>
    intro rounds seen power hlen hall hzip hnd
    cases rounds with
    | nil => simp at hlen
    | cons round rrest =>
      obtain ⟨h1, h3⟩ := hall sig (List.mem_cons_self _ _)
      cases hid : vset.GetById sig.SignerId with
      | none =>
        rw [hid] at h1
        simp at h1
      | some validator =>
        have hvid := GetById_id hid
        have hsig := hzip (sig, round) (by simp [List.zip_cons_cons])
          validator hid
        simp only [verifyCommits, if_neg h3, hid, if_pos hsig]
        apply ih
        · simpa using hlen
        · intro s hs
          obtain ⟨a, c⟩ := hall s (List.mem_cons_of_mem _ hs)
          refine ⟨a, ?_⟩
          intro hc
          rcases List.mem_cons.mp hc with he | he
          · simp only [List.map_cons, List.nodup_cons] at hnd
            exact hnd.1 (List.mem_map.mpr ⟨s, hs, by rw [he, hvid]⟩)
          · exact c he
        · intro pr hpr val hval
          exact hzip pr (by simp [List.zip_cons_cons, hpr]) val hval
        · simp only [List.map_cons, List.nodup_cons] at hnd
          exact hnd.2

theorem verifyCommits_noPanic
    (sigOk : Validator → VoteDoc → Signature → Bool) (vset : ValidatorSet)
    (height : Nat) (blockHash : List Nat) (sigs : List Signature) :
    ∀ rounds seen power,
      sigs.length ≤ rounds.length →
      verifyCommits sigOk vset height blockHash sigs rounds seen power ≠
        .indexPanic := by
  induction sigs with
  | nil =>
    intro rounds seen power _
    simp [verifyCommits]
  | cons sig rest ih =>
    intro rounds seen power hlen
    cases rounds with
    | nil => simp at hlen
    | cons round rrest =>
      simp only [verifyCommits]
      by_cases hseen : sig.SignerId ∈ seen
      · rw [if_pos hseen]
        simp
      · rw [if_neg hseen]
        cases hid : vset.GetById sig.SignerId with
        | none => simp
        | some validator =>
          simp only []
          by_cases hsig : sigOk validator
              (GenVoteDocument .commit height round blockHash) sig = true
          · rw [if_pos hsig]
            exact ih rrest _ _ (by simpa using hlen)
          · rw [if_neg hsig]
            simp

end consensus

namespace consensus

theorem signersPowerW_append (vset : ValidatorSet) (a b : List Signature)
    (acc : Nat) :
    signersPowerW vset (a ++ b) acc =
      signersPowerW vset b (signersPowerW vset a acc) := by
  simp [signersPowerW, List.foldl_append]

/-- Under the precondition that every commit has a round, `Verify` cannot
hit the out-of-range index. -/
theorem verify_ne_outOfRange
    (sigOk : Validator → VoteDoc → Signature → Bool) (pol : POL)
    (vset : ValidatorSet)
    (hlen : pol.Commits.length ≤ pol.CommitRounds.length) :
    POL.Verify sigOk pol vset ≠ .outOfRange := by
  cases hv : verifyVotes sigOk vset
      (GenVoteDocument .bare pol.Height pol.Round pol.BlockHash)
      pol.Votes [] 0 with
  | none => simp [POL.Verify, hv]
  | some sp =>
    obtain ⟨seen, power⟩ := sp
    cases hcres : verifyCommits sigOk vset pol.Height pol.BlockHash
        pol.Commits pol.CommitRounds seen power with
    | indexPanic =>
      exact absurd hcres
        (verifyCommits_noPanic sigOk vset pol.Height pol.BlockHash
          pol.Commits pol.CommitRounds seen power hlen)
    | failed => simp [POL.Verify, hv, hcres]
    | going s2 tallied =>
      simp only [POL.Verify, hv, hcres]
      by_cases htly :
          tallied > vset.TotalVotingPower * 2 % 18446744073709551616 / 3 <;>
        simp [htly]

/-- C2 (amended): assuming every commit has a corresponding round (see C8
for the out-of-range behaviour otherwise), `POL.Verify` returns `nil`
exactly when every vote and commit signature is from a validator present
in `vset` with no validator signing twice, every signature verifies
against its signed vote document, and the tallied voting power —
accumulated with wrapping `uint64` addition — strictly exceeds
`TotalVotingPower()*2/3` computed in wrapping `uint64` arithmetic (the
product wraps modulo `2^64` before the integer division); in every other
case it returns an error. -/
theorem c2_pol_verify_ok_iff_amended
    (sigOk : Validator → VoteDoc → Signature → Bool) (pol : POL)
    (vset : ValidatorSet)
    (hlen : pol.Commits.length ≤ pol.CommitRounds.length) :
    (POL.Verify sigOk pol vset = .ok ↔ polConditionsW sigOk pol vset) ∧
      POL.Verify sigOk pol vset ≠ .outOfRange := by
  refine ⟨?_, verify_ne_outOfRange sigOk pol vset hlen⟩
  cases hv : verifyVotes sigOk vset
      (GenVoteDocument .bare pol.Height pol.Round pol.BlockHash)
      pol.Votes [] 0 with
  | none =>
    have hV : POL.Verify sigOk pol vset = .errored := by
      simp [POL.Verify, hv]
    rw [hV]
    constructor
    · intro hcon
      exact VerifyResult.noConfusion hcon
    · intro hcond
      exfalso
      obtain ⟨hfound, hnd, hvotes, hcommits, hpow⟩ := hcond
      rw [List.map_append] at hnd
      have hpre : ∀ sig ∈ pol.Votes,
          (vset.GetById sig.SignerId).isSome = true ∧
          (∀ val, vset.GetById sig.SignerId = some val →
            sigOk val (GenVoteDocument .bare pol.Height pol.Round
              pol.BlockHash) sig = true) ∧
          sig.SignerId ∉ ([] : List Nat) := by
        intro sig hsig
        exact ⟨hfound sig (List.mem_append_left _ hsig),
          hvotes sig hsig, by simp⟩
      obtain ⟨s', p', heq⟩ := verifyVotes_complete sigOk vset
        (GenVoteDocument .bare pol.Height pol.Round pol.BlockHash)
        pol.Votes [] 0 hpre hnd.of_append_left
      rw [hv] at heq
      exact Option.noConfusion heq
  | some sp =>
    obtain ⟨seen, power⟩ := sp
    obtain ⟨V1, V2, V3, V4⟩ := verifyVotes_sound sigOk vset
      (GenVoteDocument .bare pol.Height pol.Round pol.BlockHash)
      pol.Votes [] 0 seen power hv
    cases hcres : verifyCommits sigOk vset pol.Height pol.BlockHash
        pol.Commits pol.CommitRounds seen power with
    | indexPanic =>
      exact absurd hcres
        (verifyCommits_noPanic sigOk vset pol.Height pol.BlockHash
          pol.Commits pol.CommitRounds seen power hlen)
    | failed =>
      have hV : POL.Verify sigOk pol vset = .errored := by
        simp [POL.Verify, hv, hcres]
      rw [hV]
      constructor
      · intro hcon
        exact VerifyResult.noConfusion hcon
      · intro hcond
        exfalso
        obtain ⟨hfound, hnd, hvotes, hcommits, hpow⟩ := hcond
        rw [List.map_append, List.nodup_append] at hnd
        obtain ⟨hndv, hndc, hdisj⟩ := hnd
        have hpre : ∀ sig ∈ pol.Commits,
            (vset.GetById sig.SignerId).isSome = true ∧
            sig.SignerId ∉ seen := by
          intro sig hsig
          refine ⟨hfound sig (List.mem_append_right _ hsig), ?_⟩
          intro hmem
          have hid : sig.SignerId ∈
              pol.Votes.map Signature.SignerId ∨
                sig.SignerId ∈ ([] : List Nat) :=
            (V4 sig.SignerId).mp hmem
          rcases hid with hid | hid
          · exact hdisj hid (List.mem_map.mpr ⟨sig, hsig, rfl⟩)
          · simp at hid
        obtain ⟨s', p', heq⟩ := verifyCommits_complete sigOk vset pol.Height
          pol.BlockHash pol.Commits pol.CommitRounds seen power hlen hpre
          hcommits hndc
        rw [hcres] at heq
        exact LoopState.noConfusion heq
    | going s2 tallied =>
      have hV : POL.Verify sigOk pol vset =
          (if tallied >
              vset.TotalVotingPower * 2 % 18446744073709551616 / 3 then
            VerifyResult.ok else VerifyResult.errored) := by
        simp [POL.Verify, hv, hcres]
      obtain ⟨C1, C2, C3, C4⟩ := verifyCommits_sound sigOk vset pol.Height
        pol.BlockHash pol.Commits pol.CommitRounds seen power s2 tallied hcres
      have htallied : tallied =
          signersPowerW vset (pol.Votes ++ pol.Commits) 0 := by
        rw [signersPowerW_append, ← V3]
        exact C4
      rw [hV]
      constructor
      · intro hok
        by_cases htly :
            tallied > vset.TotalVotingPower * 2 % 18446744073709551616 / 3
        · refine ⟨?_, ?_, ?_, C2, ?_⟩
          · intro sig hsig
            rcases List.mem_append.mp hsig with hs | hs
            · exact (V1 sig hs).1
            · exact (C1 sig hs).1
          · rw [List.map_append, List.nodup_append]
            refine ⟨V2, C3, ?_⟩
            intro a hav hac
            obtain ⟨sig, hsig, rfl⟩ := List.mem_map.mp hac
            have hseen : sig.SignerId ∈ seen := by
              rw [V4]
              exact Or.inl hav
            exact (C1 sig hsig).2 hseen
          · intro sig hsig val hval
            exact (V1 sig hsig).2.1 val hval
          · rw [← htallied]
            exact htly
        · rw [if_neg htly] at hok
          exact VerifyResult.noConfusion hok
      · intro hcond
        obtain ⟨hfound, hnd, hvotes, hcommits, hpow⟩ := hcond
        rw [← htallied] at hpow
        rw [if_pos hpow]

end consensus

namespace consensus

/-- C2 counterexample: with two validators of voting power `2^62` each,
the `uint64` product `TotalVotingPower()*2` in `pol.go` line 91 wraps to
0, so a single valid vote of power `2^62` makes `Verify` return `nil`
although the signers' voting power (`2^62` out of `2^63`) does not exceed
2/3 of the total voting power as the claim requires. -/
theorem c2_pol_verify_counterexample :
    POL.Verify (fun _ _ _ => true)
        ⟨5, 2, [], [⟨1, [7]⟩], [], []⟩
        ⟨[⟨1, 4611686018427387904⟩, ⟨2, 4611686018427387904⟩]⟩ = .ok ∧
      ¬ polConditions (fun _ _ _ => true)
        ⟨5, 2, [], [⟨1, [7]⟩], [], []⟩
        ⟨[⟨1, 4611686018427387904⟩, ⟨2, 4611686018427387904⟩]⟩ := by
  refine ⟨by decide, fun h => absurd h.2.2.2.2 (by decide)⟩

/-- Witness for the amended C2 at a concrete POL, validator set and
signature oracle. -/
theorem c2_pol_verify_ok_iff_amended_witness :
    (POL.Verify (fun _ _ _ => true)
        ⟨5, 2, [], [⟨1, [7]⟩], [], []⟩ ⟨[⟨1, 10⟩]⟩ = .ok ↔
      polConditionsW (fun _ _ _ => true)
        ⟨5, 2, [], [⟨1, [7]⟩], [], []⟩ ⟨[⟨1, 10⟩]⟩) ∧
      POL.Verify (fun _ _ _ => true)
        ⟨5, 2, [], [⟨1, [7]⟩], [], []⟩ ⟨[⟨1, 10⟩]⟩ ≠ .outOfRange :=
  c2_pol_verify_ok_iff_amended (fun _ _ _ => true)
    ⟨5, 2, [], [⟨1, [7]⟩], [], []⟩ ⟨[⟨1, 10⟩]⟩ (by decide)

/-- C8: `POL.Verify` is total only under
`len(CommitRounds) ≥ len(Commits)`: under that precondition it never
performs the out-of-range index, while a POL decoded by `ReadPOL` from a
concrete byte string, with one commit and an empty `CommitRounds`, drives
`Verify` into the out-of-range index (a panic) instead of an error
return. -/
theorem c8_commitrounds_out_of_range :
    (∀ (sigOk : Validator → VoteDoc → Signature → Bool) (pol : POL)
      (vset : ValidatorSet),
      pol.Commits.length ≤ pol.CommitRounds.length →
      POL.Verify sigOk pol vset ≠ .outOfRange) ∧
    ReadPOL [0, 0, 0, 1, 0, 1, 0, 0, 0, 0, 0, 0, 0, 0, 0, 0, 0, 1,
        0, 0, 0, 0, 0, 0, 0, 1, 0, 0, 0, 0, 0, 0, 0, 0] =
      some (⟨1, 1, [], [], [⟨1, []⟩], []⟩, []) ∧
    (POL.mk 1 1 [] [] [⟨1, []⟩] []).CommitRounds.length <
      (POL.mk 1 1 [] [] [⟨1, []⟩] []).Commits.length ∧
    POL.Verify (fun _ _ _ => true) ⟨1, 1, [], [], [⟨1, []⟩], []⟩
      ⟨[⟨1, 10⟩]⟩ = .outOfRange := by
  refine ⟨fun sigOk pol vset h => verify_ne_outOfRange sigOk pol vset h,
    by decide, by decide, by decide⟩

/-- Witness for the universally quantified part of C8. -/
theorem c8_commitrounds_out_of_range_witness :
    POL.Verify (fun _ _ _ => true) ⟨1, 1, [], [], [], []⟩ ⟨[]⟩ ≠
      .outOfRange :=
  c8_commitrounds_out_of_range.1 (fun _ _ _ => true)
    ⟨1, 1, [], [], [], []⟩ ⟨[]⟩ (by decide)

end consensus

namespace reactor

/-- C6 (code bug): the consensus reactor never broadcasts a
`HasVotesMessage`: `voteAddCounter` is a local of `Receive` reset to 0 on
every call, each call handles at most one vote, so the counter is 1 at the
modulo-50 test and the broadcast branch is dead — over any sequence of
accepted votes, zero `HasVotes` broadcasts happen, not one per 50. -/
theorem c6_hasvotes_never_broadcast :
    (∀ (vote : Vote) (a : ReceiveVoteArgs),
      receiveVoteBroadcasts vote a = 0) ∧
    (∀ msgs : List (Vote × ReceiveVoteArgs),
      receiveSeqBroadcasts msgs = 0) := by
  have hone : ∀ (vote : Vote) (a : ReceiveVoteArgs),
      receiveVoteBroadcasts vote a = 0 := by
    intro vote a
    simp only [receiveVoteBroadcasts, hasVotesThreshold]
    by_cases h1 : vote.Height ≠ a.rsHeight ∨ vote.Height ≠ a.psHeight
    · rw [if_pos h1]
    · rw [if_neg h1]
      cases a.validatorFound <;> cases a.added <;> simp
  refine ⟨hone, ?_⟩
  intro msgs
  induction msgs with
  | nil => rfl
  | cons m rest ih =>
    simp only [receiveSeqBroadcasts, List.map_cons, List.sum_cons] at ih ⊢
    rw [hone m.1 m.2, ih]

/-- C9: when the peer state's height matches, `SetHasVote` with a commit
vote always sets the commit bit and sets the prevote and precommit bits
exactly when the vote's round is below the given round; a prevote or
precommit vote sets only its own bit array's bit. -/
theorem c9_set_has_vote (ps : PeerState) (height round index : Nat)
    (vote : Vote) (hh : ps.Height = height) :
    (vote.voteType = .commit →
      (ps.SetHasVote height round index vote).Commits =
          setIndex ps.Commits index true ∧
        (ps.SetHasVote height round index vote).Prevotes =
          (if vote.Round < round then setIndex ps.Prevotes index true
           else ps.Prevotes) ∧
        (ps.SetHasVote height round index vote).Precommits =
          (if vote.Round < round then setIndex ps.Precommits index true
           else ps.Precommits)) ∧
    (vote.voteType = .prevote →
      (ps.SetHasVote height round index vote).Prevotes =
          setIndex ps.Prevotes index true ∧
        (ps.SetHasVote height round index vote).Precommits =
          ps.Precommits ∧
        (ps.SetHasVote height round index vote).Commits = ps.Commits) ∧
    (vote.voteType = .precommit →
      (ps.SetHasVote height round index vote).Precommits =
          setIndex ps.Precommits index true ∧
        (ps.SetHasVote height round index vote).Prevotes = ps.Prevotes ∧
        (ps.SetHasVote height round index vote).Commits = ps.Commits) := by
  have hne : ¬ (ps.Height ≠ height) := by
    rw [hh]
    exact fun hc => hc rfl
  refine ⟨?_, ?_, ?_⟩ <;> intro ht <;>
    simp only [PeerState.SetHasVote, if_neg hne, ht] <;>
    by_cases hr : vote.Round < round <;>
    simp [hr]

/-- Witness for C9 at a concrete peer state and commit vote. -/
theorem c9_set_has_vote_witness :
    ((Vote.mk 7 1 .commit 4).voteType = .commit →
      ((PeerState.mk 7 [false] [false] [false]).SetHasVote 7 2 0
          (Vote.mk 7 1 .commit 4)).Commits =
          setIndex [false] 0 true ∧
        ((PeerState.mk 7 [false] [false] [false]).SetHasVote 7 2 0
          (Vote.mk 7 1 .commit 4)).Prevotes =
          (if (Vote.mk 7 1 .commit 4).Round < 2 then
            setIndex [false] 0 true else [false]) ∧
        ((PeerState.mk 7 [false] [false] [false]).SetHasVote 7 2 0
          (Vote.mk 7 1 .commit 4)).Precommits =
          (if (Vote.mk 7 1 .commit 4).Round < 2 then
            setIndex [false] 0 true else [false])) ∧
    ((Vote.mk 7 1 .commit 4).voteType = .prevote →
      ((PeerState.mk 7 [false] [false] [false]).SetHasVote 7 2 0
          (Vote.mk 7 1 .commit 4)).Prevotes = setIndex [false] 0 true ∧
        ((PeerState.mk 7 [false] [false] [false]).SetHasVote 7 2 0
          (Vote.mk 7 1 .commit 4)).Precommits = [false] ∧
        ((PeerState.mk 7 [false] [false] [false]).SetHasVote 7 2 0
          (Vote.mk 7 1 .commit 4)).Commits = [false]) ∧
    ((Vote.mk 7 1 .commit 4).voteType = .precommit →
      ((PeerState.mk 7 [false] [false] [false]).SetHasVote 7 2 0
          (Vote.mk 7 1 .commit 4)).Precommits = setIndex [false] 0 true ∧
        ((PeerState.mk 7 [false] [false] [false]).SetHasVote 7 2 0
          (Vote.mk 7 1 .commit 4)).Prevotes = [false] ∧
        ((PeerState.mk 7 [false] [false] [false]).SetHasVote 7 2 0
          (Vote.mk 7 1 .commit 4)).Commits = [false]) :=
  c9_set_has_vote (PeerState.mk 7 [false] [false] [false]) 7 2 0
    (Vote.mk 7 1 .commit 4) (by decide)

end reactor

namespace state

/-- C10: `Account.Verify(o)` leaves its argument unchanged: the signature
is cleared only to compute the signed message and is restored before
returning, so the final signature equals the original one (in fact the
whole `Signable` is restored). -/
theorem c10_verify_restores_signature {β : Type}
    (verifyBytes : List Nat → Signature → Bool)
    (binaryBytes : Signable β → List Nat) (o : Signable β) :
    (Account.Verify verifyBytes binaryBytes o).2.signature = o.signature ∧
      (Account.Verify verifyBytes binaryBytes o).2 = o := by
  constructor
  · rfl
  · rfl

end state

namespace p2p

theorem innerPickLoop_cases (i : Nat) (isDup : Nat → Bool)
    (resp : List (Option Nat)) :
    (innerPickLoop i isDup resp = .skipped ↔ 3 ≤ i) ∧
    (∀ n, innerPickLoop i isDup resp = .nilPicked n → i < 3 ∧ 1 ≤ n) ∧
    (∀ a n, innerPickLoop i isDup resp = .fresh a n → i < 3 ∧ 1 ≤ n) := by
  induction resp with
  | nil =>
    by_cases h : i < 3 <;>
      simp [innerPickLoop, h] <;> omega
  | cons o rest ih =>
    obtain ⟨ih1, ih2, ih3⟩ := ih
    cases o with
    | none =>
      by_cases h : i < 3 <;> simp [innerPickLoop, h] <;> omega
    | some a =>
      by_cases h : i < 3
      · simp only [innerPickLoop, if_pos h]
        by_cases hd : isDup a
        · simp only [hd, if_true]
          cases hrec : innerPickLoop i isDup rest with
          | skipped => exact absurd (ih1.mp hrec) (by omega)
          | noResponses =>
            refine ⟨by simp; omega, ?_, ?_⟩
            · intro n hn
              exact PickOutcome.noConfusion hn
            · intro b n hn
              exact PickOutcome.noConfusion hn
          | nilPicked n =>
            refine ⟨by simp; omega, ?_, ?_⟩
            · intro n2 hn
              injection hn with hn
              omega
            · intro b n2 hn
              exact PickOutcome.noConfusion hn
          | fresh b n =>
            refine ⟨by simp; omega, ?_, ?_⟩
            · intro n2 hn
              exact PickOutcome.noConfusion hn
            · intro c n2 hn
              injection hn with hn1 hn2
              omega
        · simp only [hd, if_false, Bool.false_eq_true]
          refine ⟨by simp; omega, ?_, ?_⟩
          · intro n hn
            exact PickOutcome.noConfusion hn
          · intro b n hn
            injection hn with hn1 hn2
            omega
      · simp [innerPickLoop, h]
        omega

theorem ensurePeersLoop_picksOK (busy : Nat → Bool) (remaining : Nat) :
    ∀ (i : Nat) (toDial : List Nat) (resp : List (Option Nat)),
      picksOK i (ensurePeersLoop busy remaining i toDial resp).1 := by
  induction remaining with
  | zero =>
    intro i toDial resp
    simp [ensurePeersLoop, picksOK]
  | succ rem ih =>
    intro i toDial resp
    obtain ⟨h1, h2, h3⟩ :=
      innerPickLoop_cases i (fun a => toDial.contains a || busy a) resp
    cases hout : innerPickLoop i (fun a => toDial.contains a || busy a)
        resp with
    | skipped =>
      have hi : 3 ≤ i := h1.mp hout
      have hgoal : (ensurePeersLoop busy (rem + 1) i toDial resp).1 =
          0 :: (ensurePeersLoop busy rem (i + 1) toDial resp).1 := by
        simp only [ensurePeersLoop]
        rw [hout]
      rw [hgoal]
      exact ⟨fun _ => rfl, fun hc => absurd hc (by omega),
        ih (i + 1) toDial resp⟩
    | noResponses =>
      have hgoal : (ensurePeersLoop busy (rem + 1) i toDial resp).1 = [] := by
        simp only [ensurePeersLoop]
        rw [hout]
      rw [hgoal]
      exact trivial
    | nilPicked n =>
      obtain ⟨hi, hn⟩ := h2 n hout
      have hgoal : (ensurePeersLoop busy (rem + 1) i toDial resp).1 =
          [n] := by
        simp only [ensurePeersLoop]
        rw [hout]
      rw [hgoal]
      exact ⟨fun hc => absurd hc (by omega), fun _ => hn, trivial⟩
    | fresh a n =>
      obtain ⟨hi, hn⟩ := h3 a n hout
      have hgoal : (ensurePeersLoop busy (rem + 1) i toDial resp).1 =
          n :: (ensurePeersLoop busy rem (i + 1) (toDial ++ [a])
            (resp.drop n)).1 := by
        simp only [ensurePeersLoop]
        rw [hout]
      rw [hgoal]
      exact ⟨fun hc => absurd hc (by omega), fun _ => hn,
        ih (i + 1) (toDial ++ [a]) (resp.drop n)⟩

theorem picksOK_getD {l : List Nat} :
    ∀ i, picksOK i l →
      ∀ j, j < l.length →
        (3 ≤ i + j → l.getD j 0 = 0) ∧ (i + j < 3 → 1 ≤ l.getD j 0) := by
  induction l with
  | nil =>
    intro i _ j hj
    simp at hj
  | cons n rest ih =>
    intro i h j hj
    obtain ⟨ha, hb, hrest⟩ := h
    cases j with
    | zero =>
      refine ⟨?_, ?_⟩
      · intro h3
        exact ha (by omega)
      · intro h3
        exact hb (by omega)
    | succ j2 =>
      have := ih (i + 1) hrest j2 (by simpa using hj)
      constructor
      · intro h3
        exact this.1 (by omega)
      · intro h3
        exact this.2 (by omega)

/-- C7 (counterexample): with a fresh address book response for every
pick and `numToDial = 10`, the fourth and later outer iterations of
`ensurePeers` perform no `PickAddress` call at all (the inner loop
condition reads `i < 3`), so the per-iteration pick counts are not one
pick per iteration. -/
theorem c7_single_pick_counterexample :
    ensurePeersPicks 0 0 (fun _ => false) [some 0, some 1, some 2] ≠
      List.replicate 10 1 := by
  decide

/-- C7 (amended): in `PeerManager.ensurePeers`, the outer iterations with
index `i ≥ 3` perform no `PickAddress` call (the inner loop condition
references the outer `i` instead of `j`), and the executed iterations with
`i < 3` perform at least one call, repeating while picks are duplicates —
for every `numToDial` and every behaviour of the address book. -/
theorem c7_ensure_peers_picks_amended (numOutPeers numDialing : Nat)
    (busy : Nat → Bool) (resp : List (Option Nat)) (j : Nat)
    (hj : j < (ensurePeersPicks numOutPeers numDialing busy resp).length) :
    (3 ≤ j →
      (ensurePeersPicks numOutPeers numDialing busy resp).getD j 0 = 0) ∧
    (j < 3 →
      1 ≤ (ensurePeersPicks numOutPeers numDialing busy resp).getD j 0) := by
  unfold ensurePeersPicks at hj ⊢
  by_cases h : minNumOutboundPeers ≤ numOutPeers + numDialing
  · rw [if_pos h] at hj
    simp at hj
  · rw [if_neg h] at hj ⊢
    have := ensurePeersLoop_picksOK busy
      (minNumOutboundPeers - (numOutPeers + numDialing)) 0 [] resp
    have h2 := picksOK_getD 0 this j hj
    simpa using h2

/-- Witness for the amended C7 at a concrete configuration. -/
theorem c7_ensure_peers_picks_amended_witness :
    (3 ≤ 3 →
      (ensurePeersPicks 0 0 (fun _ => false)
        [some 0, some 1, some 2]).getD 3 0 = 0) ∧
    (3 < 3 →
      1 ≤ (ensurePeersPicks 0 0 (fun _ => false)
        [some 0, some 1, some 2]).getD 3 0) :=
  c7_ensure_peers_picks_amended 0 0 (fun _ => false)
    [some 0, some 1, some 2] 3 (by decide)

end p2p
